import Mathlib

/-!
Verification of the PDF-to-JSON converter (`pdf_to_json.py`).

The development shallowly embeds the converter's logic:

* JSON-serializable values (Python dicts, lists, strings, numbers, booleans
  and None) are modelled by the inductive type `JVal`; Python dicts keep
  insertion order, which `JVal.jobj`'s association list preserves.
* Python numbers (int and float) are both modelled as exact rationals
  (`Rat`).  Every IEEE-754 double is a dyadic rational, so every number a
  real converter run can place in a record admits a finite decimal
  expansion; the serializer below renders exactly those.
* `datetime.strptime(s, "%Y%m%d%H%M%S")` is modelled by a backtracking
  matcher that follows CPython's `_strptime` regular expressions for the
  `%Y %m %d %H %M %S` directives, including their one-digit alternatives
  and ordered-alternation (leftmost-priority) semantics, followed by the
  calendar-validity check performed by the `datetime` constructor.
* Fallible collaborator capabilities (opening the file, per-page text /
  table / word extraction) are modelled with `Except String`; the
  `try/except` of `convert` maps the error case to `none`.
-/

namespace PdfToJson

/-- A JSON-serializable Python value: None, bool, number, str, list, dict
(insertion-ordered). -/
inductive JVal where
  | jnull
  | jbool (b : Bool)
  | jnum (q : Rat)
  | jstr (s : String)
  | jarr (elems : List JVal)
  | jobj (fields : List (String × JVal))

/-- Dict lookup on a `jobj`, `jnull` on a missing key or a non-dict: the
total counterpart of Python's `v[k]` used to state properties of records
whose shape the code guarantees. -/
def getField (v : JVal) (k : String) : JVal :=
  match v with
  | .jobj fields =>
      match fields.find? (fun p => p.1 == k) with
      | some p => p.2
      | none => .jnull
  | _ => .jnull

/-! ## Digit characters -/

/-- Numeric value of a digit character (int of a matched digit). -/
def dval (c : Char) : Nat := c.toNat - 48

/-- ASCII digit test (the regex class `\d` restricted to ASCII, which is all
the format's directives can produce or consume here). -/
def isDigitCh (c : Char) : Bool := 48 ≤ c.toNat && c.toNat ≤ 57

/-- The character for a decimal digit. -/
def digitChar (d : Nat) : Char :=
  ['0', '1', '2', '3', '4', '5', '6', '7', '8', '9'].getD d '*'

/-- Two-digit zero-padded rendering (`%02d` for values below 100). -/
def pad2 (n : Nat) : List Char := [digitChar (n / 10), digitChar (n % 10)]

/-- Four-digit zero-padded rendering (`%04d` for values below 10000). -/
def pad4 (n : Nat) : List Char :=
  [digitChar (n / 1000), digitChar (n / 100 % 10), digitChar (n / 10 % 10), digitChar (n % 10)]

/-! ## The strptime model

CPython's `_strptime` compiles `"%Y%m%d%H%M%S"` to the regular expression

  `(?P<Y>\d\d\d\d)(?P<m>1[0-2]|0[1-9]|[1-9])(?P<d>3[0-1]|[1-2]\d|0[1-9]|[1-9]| [1-9])`
  `(?P<H>2[0-3]|[0-1]\d|\d)(?P<M>[0-5]\d|\d)(?P<S>6[0-1]|[0-5]\d|\d)`

then runs `match` (leftmost-priority backtracking, ordered alternation, no
end anchor) and finally raises unless the match spans the whole input.  The
matcher below implements exactly that: each field is a priority-ordered
list of alternatives, and a failing continuation backtracks into the next
alternative of an earlier field. -/

/-- One alternative of one directive: consumes one or two characters and
yields the integer value of the matched text. -/
abbrev FieldAlt := List Char → Option (Nat × List Char)

/-- A two-character alternative such as `1[0-2]`; its value is the matched
text read as a number. -/
def alt2 (p1 p2 : Char → Bool) : FieldAlt := fun s =>
  match s with
  | a :: b :: r => if p1 a && p2 b then some (10 * dval a + dval b, r) else none
  | _ => none

/-- A one-character alternative such as `[1-9]`. -/
def alt1 (p : Char → Bool) : FieldAlt := fun s =>
  match s with
  | a :: r => if p a then some (dval a, r) else none
  | _ => none

/-- The day directive's ` [1-9]` alternative: a space then a digit; `int`
of the matched text ignores the leading space. -/
def altSpaceDigit : FieldAlt := fun s =>
  match s with
  | a :: b :: r => if a == ' ' && (49 ≤ b.toNat && b.toNat ≤ 57) then some (dval b, r) else none
  | _ => none

/-- Character equality test for an alternative's first position. -/
def chEq (x : Char) : Char → Bool := fun c => c == x

/-- Character range test (a regex character class like `[0-5]`). -/
def chIn (lo hi : Char) : Char → Bool := fun c => lo.toNat ≤ c.toNat && c.toNat ≤ hi.toNat

/-- `%Y`: exactly four digits. -/
def yearAlt : FieldAlt := fun s =>
  match s with
  | a :: b :: c :: d :: r =>
      if isDigitCh a && isDigitCh b && isDigitCh c && isDigitCh d then
        some (1000 * dval a + 100 * dval b + 10 * dval c + dval d, r)
      else none
  | _ => none

def specY : List FieldAlt := [yearAlt]

def specMon : List FieldAlt :=
  [alt2 (chEq '1') (chIn '0' '2'), alt2 (chEq '0') (chIn '1' '9'), alt1 (chIn '1' '9')]

def specDay : List FieldAlt :=
  [alt2 (chEq '3') (chIn '0' '1'), alt2 (chIn '1' '2') isDigitCh,
   alt2 (chEq '0') (chIn '1' '9'), alt1 (chIn '1' '9'), altSpaceDigit]

def specHour : List FieldAlt :=
  [alt2 (chEq '2') (chIn '0' '3'), alt2 (chIn '0' '1') isDigitCh, alt1 isDigitCh]

def specMin : List FieldAlt := [alt2 (chIn '0' '5') isDigitCh, alt1 isDigitCh]

def specSec : List FieldAlt :=
  [alt2 (chEq '6') (chIn '0' '1'), alt2 (chIn '0' '5') isDigitCh, alt1 isDigitCh]

/-- First defined entry of a priority-ordered list of attempts. -/
def firstHit {α : Type} : List (Option α) → Option α
  | [] => none
  | some a :: _ => some a
  | none :: rest => firstHit rest

/-- Leftmost-priority backtracking over a sequence of directives: the first
(in alternation order) complete match of all fields, exactly as a
backtracking regex engine finds it.  A failing continuation falls through
to the next alternative of the current field. -/
def runFields : List (List FieldAlt) → List Char → Option (List Nat × List Char)
  | [], s => some ([], s)
  | alts :: fs, s =>
      firstHit (alts.map fun alt =>
        match alt s with
        | none => none
        | some (v, s1) =>
            match runFields fs s1 with
            | none => none
            | some (vs, s2) => some (v :: vs, s2))

/-- `datetime.strptime(s, "%Y%m%d%H%M%S")` up to (but not including) the
calendar-validity checks: the regex match plus `_strptime`'s requirement
that the match span the whole input. -/
def strptimeYmdHms (s : List Char) : Option (Nat × Nat × Nat × Nat × Nat × Nat) :=
  match runFields [specY, specMon, specDay, specHour, specMin, specSec] s with
  | some ([y, mo, dy, hh, mm, ss], rest) =>
      if rest.isEmpty then some (y, mo, dy, hh, mm, ss) else none
  | _ => none

/-- Gregorian leap-year rule, as `datetime` applies it. -/
def isLeapYear (y : Nat) : Bool := y % 4 == 0 && (y % 100 != 0 || y % 400 == 0)

/-- Days in a month, as `datetime` validates the day field. -/
def daysInMonth (y mo : Nat) : Nat :=
  if mo == 2 then (if isLeapYear y then 29 else 28)
  else if mo == 4 || mo == 6 || mo == 9 || mo == 11 then 30
  else 31

/-- The `datetime` constructor's range checks (`MINYEAR = 1`; a four-digit
year never exceeds `MAXYEAR = 9999`). -/
def validDatetime (y mo dy hh mm ss : Nat) : Bool :=
  1 ≤ y && 1 ≤ mo && mo ≤ 12 && 1 ≤ dy && dy ≤ daysInMonth y mo && hh ≤ 23 && mm ≤ 59 && ss ≤ 59

/-- `datetime(...).isoformat()` for a whole-second timestamp. -/
def isoChars (y mo dy hh mm ss : Nat) : List Char :=
  pad4 y ++ ('-' :: pad2 mo) ++ ('-' :: pad2 dy) ++ ('T' :: pad2 hh) ++
    (':' :: pad2 mm) ++ (':' :: pad2 ss)

/-- The date-normalization attempt of `extract_metadata`'s try-block:
`datetime.strptime(raw[2:][:14], "%Y%m%d%H%M%S").isoformat()`, with `none`
when any step of it raises. -/
def pdfDateToIso (raw : String) : Option String :=
  match strptimeYmdHms ((raw.toList.drop 2).take 14) with
  | some (y, mo, dy, hh, mm, ss) =>
      if validDatetime y mo dy hh mm ss then some (String.mk (isoChars y mo dy hh mm ss))
      else none
  | none => none

/-! ## extract_metadata -/

/-- The recognized metadata field names (`self.metadata_fields`). -/
def metadata_fields : List String :=
  ["Title", "Author", "Subject", "Keywords", "Creator", "Producer", "CreationDate", "ModDate"]

/-- Python's substring test `needle in hay`. -/
def strContains (hay needle : String) : Bool :=
  hay.toList.tails.any fun t => needle.toList.isPrefixOf t

/-- Python's `s.startswith("D:")`. -/
def startsWithDColon (s : String) : Bool :=
  match s.toList with
  | 'D' :: ':' :: _ => true
  | _ => false

/-- Dict membership plus indexing of the raw metadata (`field in raw_meta`
then `raw_meta[field]`). -/
def lookupRaw (rm : List (String × String)) (k : String) : Option String :=
  (rm.find? fun p => p.1 == k).map fun p => p.2

/-- The value stored for one present field: date normalization (with
passthrough on failure) for `Date`-named fields whose value starts with
`D:`, the raw string verbatim otherwise. -/
def mdValue (field v : String) : String :=
  if strContains field "Date" && startsWithDColon v then (pdfDateToIso v).getD v
  else v

/-- `extract_metadata`: iterate the recognized fields in order, keeping the
present ones; `raw_meta = pdf.metadata or {}` is the `Option` argument. -/
def extract_metadata (raw_meta : Option (List (String × String))) : List (String × String) :=
  let rm := raw_meta.getD []
  metadata_fields.filterMap fun field =>
    (lookupRaw rm field).map fun v => (field, mdValue field v)

/-! ## The collaborator contract

The external PDF library supplies, per page, plain-text extraction, table
extraction, word extraction, the image list, and the page box.  Each
extraction method can raise (corrupt input), modelled with `Except`; plain
attribute reads (`page.width`, `page.height`) do not. -/

/-- One extracted word record (at least a text span). -/
structure Word where
  text : String

/-- A page handle: the capabilities `extract_page_content` consumes.  A
table is a grid of rows of cells; a cell is a string or `None`.  The image
list is part of the collaborator contract even though the code never reads
it. -/
structure Page where
  extract_text : Except String (Option String)
  extract_tables : Except String (List (List (List (Option String))))
  extract_words : Except String (List Word)
  images : List Unit
  width : Rat
  height : Rat

/-- A document handle: the metadata dictionary (`none` models a `None`
attribute, squashed by `or {}`) and the ordered page list. -/
structure PDF where
  metadata : Option (List (String × String))
  pages : List Page

/-! ## extract_page_content -/

/-- A table cell as stored in JSON: `None` becomes JSON null. -/
def cellJ : Option String → JVal
  | none => .jnull
  | some s => .jstr s

/-- One detected table wrapped as `{"data": grid}`. -/
def tableJ (t : List (List (Option String))) : JVal :=
  .jobj [("data", .jarr (t.map fun row => .jarr (row.map cellJ)))]

/-- `sum(len(w['text']) for w in words) / len(words)`: the mean word length
(the division the zero-word guard protects). -/
def avgWordLength (ws : List Word) : Rat :=
  ((ws.map fun w => (w.text.length : Rat)).sum) / (ws.length : Rat)

/-- The content dict built from successful extractions: text (with
`or ""`), tables (each wrapped under a `"data"` key; the list stays `[]`
when falsy), the constant-`False` image flag, and the layout stats
computed only when at least one word was extracted — the initial
`"layout"` value is the *list* `[]`. -/
def pageContentJ (t : Option String) (tables : List (List (List (Option String))))
    (words : List Word) : JVal :=
  .jobj [("text", .jstr (t.getD "")),
         ("tables", if tables.isEmpty then .jarr [] else .jarr (tables.map tableJ)),
         ("images", .jbool false),
         ("layout", if words.isEmpty then .jarr []
                    else .jobj [("word_count", .jnum (words.length : Rat)),
                                ("avg_word_length", .jnum (avgWordLength words))])]

/-- `extract_page_content`: run the three extraction capabilities in source
order (a raise propagates) and build the content dict. -/
def extract_page_content (page : Page) : Except String JVal := do
  let t ← page.extract_text
  let tables ← page.extract_tables
  let words ← page.extract_words
  pure (pageContentJ t tables words)

/-! ## convert -/

/-- Python's `str.split()` with no separator: split on runs of whitespace,
discarding empty pieces.  The whitespace set is the ASCII one (space, tab,
newline, return, vertical tab, form feed); both users of `split` in the
development use this same set, so the claims compare like with like. -/
def isPySpace (c : Char) : Bool :=
  c == ' ' || c == '\t' || c == '\n' || c == '\r' || c == '\x0b' || c == '\x0c'

/-- Accumulator pass for `pysplit`: current word characters are carried
reversed. -/
def pysplitAux : List Char → List Char → List String
  | [], acc => if acc.isEmpty then [] else [String.mk acc.reverse]
  | c :: rest, acc =>
      if isPySpace c then
        if acc.isEmpty then pysplitAux rest [] else String.mk acc.reverse :: pysplitAux rest []
      else pysplitAux rest (c :: acc)

/-- `s.split()`. -/
def pysplit (s : String) : List String := pysplitAux s.toList []

/-- The `"text"` entry of a page record's `"content"` entry
(`p["content"]["text"]`), total with fallback `""` on a shape the code
never produces. -/
def pageText (p : JVal) : String :=
  match getField (getField p "content") "text" with
  | .jstr s => s
  | _ => ""

/-- The record built for one page of the enumeration:
`{"page_number": i, "dimensions": {...}, "content": ...}`. -/
def pageJ (i : Nat) (page : Page) (content : JVal) : JVal :=
  .jobj [("page_number", .jnum (i : Rat)),
         ("dimensions", .jobj [("width", .jnum page.width), ("height", .jnum page.height)]),
         ("content", content)]

/-- The page loop of `convert`: `for i, page in enumerate(pdf.pages, start=1)`,
stopping at the first extraction error exactly as a raise would. -/
def buildPages : List (Nat × Page) → Except String (List JVal)
  | [] => .ok []
  | ip :: rest => do
      let content ← extract_page_content ip.2
      let tail ← buildPages rest
      pure (pageJ ip.1 ip.2 content :: tail)

/-- The body of `convert`'s try-block: metadata, the page loop, then the
statistics computed from the result's own pages
(`sum(len(p["content"]["text"].split()) for p in result["pages"])`). -/
def convertBody (pdf : PDF) : Except String JVal := do
  let meta := extract_metadata pdf.metadata
  let pages ← buildPages (pdf.pages.enumFrom 1)
  let totalWords : Nat := (pages.map fun p => (pysplit (pageText p)).length).sum
  pure (.jobj [("metadata", .jobj (meta.map fun kv => (kv.1, JVal.jstr kv.2))),
               ("pages", .jarr pages),
               ("stats", .jobj [("total_pages", .jnum (pdf.pages.length : Rat)),
                                ("total_words", .jnum (totalWords : Rat))])])

/-- `convert`: open the file (the `Except`-valued argument models
`pdfplumber.open`), run the body, and let the top-level `except` clause
turn any raise into `None`. -/
def convert (opened : Except String PDF) : Option JVal :=
  match (do let pdf ← opened; convertBody pdf : Except String JVal) with
  | .ok r => some r
  | .error _ => none

/-! ## save_as_json and the CLI output (serialization) -/

/-- Python whitespace as `json.loads` skips it between tokens. -/
def isJsonWs (c : Char) : Bool := c == ' ' || c == '\t' || c == '\n' || c == '\r'

/-- Decimal digit characters of `n`, most significant first; the fuel is
structural so the kernel can evaluate it (`natChars` supplies `n` itself,
which the division chain never exhausts). -/
def natCharsAux : Nat → Nat → List Char
  | 0, n => [digitChar (n % 10)]
  | fuel + 1, n =>
      if n < 10 then [digitChar n] else natCharsAux fuel (n / 10) ++ [digitChar (n % 10)]

/-- Decimal digit characters of a natural number (`"0"` for zero). -/
def natChars (n : Nat) : List Char := natCharsAux n n

/-- Decimal characters of an integer: `str(i)`. -/
def intChars (i : Int) : List Char :=
  (if i < 0 then ['-'] else []) ++ natChars i.natAbs

/-- Left-pad a digit run with zeros to width `k` (fraction digits). -/
def fracPad (k : Nat) (ds : List Char) : List Char := List.replicate (k - ds.length) '0' ++ ds

/-- Serialization of one number.  `json.dumps` writes `repr` of the Python
number; for an int that is its decimal digits, and for a float the shortest
decimal that reads back to the same value.  The model renders the *exact*
decimal expansion instead (every float is a dyadic rational, so one
exists); it denotes the same rational, which is what the round-trip
properties compare.  `k` is the least exponent with `den ∣ 10^k`, found by
search; a rational with no finite decimal expansion (impossible for
float-valued data) falls back to its truncated integer part. -/
def ratChars (q : Rat) : List Char :=
  match (List.range (q.den + 1)).find? fun k => q.den ∣ 10 ^ k with
  | some 0 => intChars q.num
  | some (k + 1) =>
      let n : Nat := q.num.natAbs * (10 ^ (k + 1) / q.den)
      (if q.num < 0 then ['-'] else []) ++
        (natChars (n / 10 ^ (k + 1)) ++ ('.' :: fracPad (k + 1) (natChars (n % 10 ^ (k + 1)))))
  | none => intChars q.num

/-- The character for a hexadecimal digit (lowercase, as CPython's encoder
writes `\uXXXX`). -/
def hexDigitChar (d : Nat) : Char := "0123456789abcdef".toList.getD d '*'

/-- JSON escaping of one character with `ensure_ascii=False`: short escapes
for the two metacharacters and the five named control characters, `\u00XX`
for the remaining control characters, everything else literal. -/
def escChar (c : Char) : List Char :=
  if c == '"' then ['\\', '"']
  else if c == '\\' then ['\\', '\\']
  else if c == '\n' then ['\\', 'n']
  else if c == '\r' then ['\\', 'r']
  else if c == '\t' then ['\\', 't']
  else if c == '\x08' then ['\\', 'b']
  else if c == '\x0c' then ['\\', 'f']
  else if c.toNat < 32 then
    ['\\', 'u', '0', '0', hexDigitChar (c.toNat / 16), hexDigitChar (c.toNat % 16)]
  else [c]

/-- Escaped body of a JSON string. -/
def escString (s : String) : List Char := (s.toList.map escChar).flatten

/-- A serialized JSON string: quote, escaped body, quote. -/
def strJ (s : String) : List Char := '"' :: (escString s ++ ['"'])

/-- The newline-plus-indentation `json.dumps` writes after an opening
bracket, between items (after the comma) and before a closing bracket when
an `indent` is given; nothing in compact mode. -/
def padNl (i : Option Nat) (lvl : Nat) : List Char :=
  match i with
  | none => []
  | some n => '\n' :: List.replicate (n * lvl) ' '

/-- What follows an item separator's comma: a single space in compact mode
(the default `", "` separator), newline plus indentation otherwise. -/
def sepSp (i : Option Nat) (lvl : Nat) : List Char :=
  match i with
  | none => [' ']
  | some n => '\n' :: List.replicate (n * lvl) ' '

mutual
/-- `json.dumps(v, ensure_ascii=False, indent=i)` as characters, at nesting
level `lvl`; `i = none` is the compact default with `", "` and `": "`
separators. -/
def dumpsChars : JVal → Option Nat → Nat → List Char
  | .jnull, _, _ => ['n', 'u', 'l', 'l']
  | .jbool true, _, _ => ['t', 'r', 'u', 'e']
  | .jbool false, _, _ => ['f', 'a', 'l', 's', 'e']
  | .jnum q, _, _ => ratChars q
  | .jstr s, _, _ => strJ s
  | .jarr [], _, _ => ['[', ']']
  | .jarr (x :: xs), i, lvl =>
      '[' :: (padNl i (lvl + 1) ++ (dumpsItems (x :: xs) i (lvl + 1) ++ (padNl i lvl ++ [']'])))
  | .jobj [], _, _ => ['\x7b', '\x7d']
  | .jobj (kv :: kvs), i, lvl =>
      '\x7b' :: (padNl i (lvl + 1) ++ (dumpsMembers (kv :: kvs) i (lvl + 1) ++ (padNl i lvl ++ ['\x7d'])))
/-- The comma-separated item list of a non-empty array. -/
def dumpsItems : List JVal → Option Nat → Nat → List Char
  | [], _, _ => []
  | [x], i, lvl => dumpsChars x i lvl
  | x :: y :: xs, i, lvl =>
      dumpsChars x i lvl ++ (',' :: (sepSp i lvl ++ dumpsItems (y :: xs) i lvl))
/-- The comma-separated member list of a non-empty object (`": "` after
every key in both modes). -/
def dumpsMembers : List (String × JVal) → Option Nat → Nat → List Char
  | [], _, _ => []
  | [kv], i, lvl => strJ kv.1 ++ (':' :: ' ' :: dumpsChars kv.2 i lvl)
  | kv :: kv2 :: kvs, i, lvl =>
      (strJ kv.1 ++ (':' :: ' ' :: dumpsChars kv.2 i lvl)) ++
        (',' :: (sepSp i lvl ++ dumpsMembers (kv2 :: kvs) i lvl))
end

/-- `json.dumps(v, ensure_ascii=False, indent=i)`. -/
def dumps (v : JVal) (indent : Option Nat) : String := String.mk (dumpsChars v indent 0)

/-- The JSON text `save_as_json` writes to its output file:
`json.dump(data, f, ensure_ascii=False, indent=2)` — the indent is fixed;
the function has no formatting parameter. -/
def save_as_json_text (data : JVal) : String := dumps data (some 2)

/-- The JSON text `main` prints to standard output when no output file is
given: indented iff the `--pretty` flag was passed. -/
def mainStdoutText (result : JVal) (pretty : Bool) : String :=
  if pretty then dumps result (some 2) else dumps result none

/-! ## A JSON parser (the model of `json.loads`)

Recursive descent with a structural fuel counter.  It accepts the strict
JSON grammar as `json.loads` reads it: whitespace between tokens, the
escape forms (including `\uXXXX`), no leading zeros in numbers, no bare
control characters inside strings. -/

/-- Value of one hexadecimal digit character. -/
def hexVal (c : Char) : Option Nat :=
  if 48 ≤ c.toNat && c.toNat ≤ 57 then some (c.toNat - 48)
  else if 97 ≤ c.toNat && c.toNat ≤ 102 then some (c.toNat - 87)
  else if 65 ≤ c.toNat && c.toNat ≤ 70 then some (c.toNat - 55)
  else none

/-- The character a short escape denotes. -/
def shortEscape (c : Char) : Option Char :=
  [('"', '"'), ('\\', '\\'), ('/', '/'), ('n', '\n'),
   ('r', '\r'), ('t', '\t'), ('b', '\x08'), ('f', '\x0c')].lookup c

/-- Body of a JSON string after the opening quote: the decoded characters
and the input after the closing quote. -/
def parseStringBody : List Char → Option (List Char × List Char)
  | [] => none
  | '"' :: rest => some ([], rest)
  | '\\' :: 'u' :: a :: b :: c :: d :: rest => do
      let va ← hexVal a
      let vb ← hexVal b
      let vc ← hexVal c
      let vd ← hexVal d
      let n := ((va * 16 + vb) * 16 + vc) * 16 + vd
      if Nat.isValidChar n then
        (parseStringBody rest).map fun p => (Char.ofNat n :: p.1, p.2)
      else none
  | '\\' :: e :: rest => do
      let ch ← shortEscape e
      (parseStringBody rest).map fun p => (ch :: p.1, p.2)
  | c :: rest =>
      if c.toNat < 32 then none
      else (parseStringBody rest).map fun p => (c :: p.1, p.2)

/-- Numeric value of a run of digit characters. -/
def digitsVal (ds : List Char) : Nat := ds.foldl (fun a c => a * 10 + dval c) 0

/-- Combine sign, scaled mantissa and exponent into the denoted rational:
`applyExp m k e = m * 10^e / 10^k` (built with `mkRat` so it computes). -/
def applyExp (m : Int) (k : Nat) (e : Int) : Rat :=
  if 0 ≤ e then mkRat (m * 10 ^ e.toNat) (10 ^ k)
  else mkRat m (10 ^ k * 10 ^ (-e).toNat)

/-- The exponent part after `e`/`E`: optional sign, then digits. -/
def parseExpPart (s : List Char) : Option (Int × List Char) :=
  let sr : Int × List Char :=
    match s with
    | '+' :: r => (1, r)
    | '-' :: r => (-1, r)
    | _ => (1, s)
  let es := sr.2.takeWhile isDigitCh
  if es.isEmpty then none
  else some (sr.1 * (digitsVal es : Int), sr.2.dropWhile isDigitCh)

/-- The magnitude of a JSON number after the optional minus sign: integer
digits without leading zeros, optional fraction, optional exponent; the
sign is applied to the scaled mantissa. -/
def parseNumMag (neg : Bool) (s : List Char) : Option (Rat × List Char) :=
  let ds := s.takeWhile isDigitCh
  if ds.isEmpty then none
  else if 1 < ds.length && ds.head? == some '0' then none
  else
    let r1 := s.dropWhile isDigitCh
    let fr : Option (Nat × Nat × List Char) :=
      if r1.head? == some '.' then
        let fs := r1.tail.takeWhile isDigitCh
        if fs.isEmpty then none
        else some (digitsVal ds * 10 ^ fs.length + digitsVal fs, fs.length,
                   r1.tail.dropWhile isDigitCh)
      else some (digitsVal ds, 0, r1)
    match fr with
    | none => none
    | some (m, k, r2) =>
        let ms : Int := if neg then -(m : Int) else (m : Int)
        if r2.head? == some 'e' || r2.head? == some 'E' then
          match parseExpPart r2.tail with
          | some (ex, r4) => some (applyExp ms k ex, r4)
          | none => none
        else some (applyExp ms k 0, r2)

/-- A JSON number: optional minus, then the magnitude. -/
def parseNumber (s : List Char) : Option (Rat × List Char) :=
  if s.head? == some '-' then parseNumMag true s.tail else parseNumMag false s

/-- Skip inter-token whitespace. -/
def skipWs (s : List Char) : List Char := s.dropWhile isJsonWs

mutual
/-- One JSON value (leading whitespace allowed), with the remaining input. -/
def parseValue : Nat → List Char → Option (JVal × List Char)
  | 0, _ => none
  | fuel + 1, s =>
      match skipWs s with
      | 'n' :: 'u' :: 'l' :: 'l' :: r => some (.jnull, r)
      | 't' :: 'r' :: 'u' :: 'e' :: r => some (.jbool true, r)
      | 'f' :: 'a' :: 'l' :: 's' :: 'e' :: r => some (.jbool false, r)
      | '"' :: r => (parseStringBody r).map fun p => (.jstr (String.mk p.1), p.2)
      | '[' :: r =>
          (match skipWs r with
           | ']' :: r2 => some (.jarr [], r2)
           | _ => (parseItems fuel r).map fun p => (.jarr p.1, p.2))
      | '\x7b' :: r =>
          (match skipWs r with
           | '\x7d' :: r2 => some (.jobj [], r2)
           | _ => (parseMembers fuel r).map fun p => (.jobj p.1, p.2))
      | s2 => (parseNumber s2).map fun p => (.jnum p.1, p.2)
/-- One or more comma-separated array items up to the closing bracket. -/
def parseItems : Nat → List Char → Option (List JVal × List Char)
  | 0, _ => none
  | fuel + 1, s => do
      let (v, r) ← parseValue fuel s
      match skipWs r with
      | ',' :: r2 => (parseItems fuel r2).map fun p => (v :: p.1, p.2)
      | ']' :: r2 => some ([v], r2)
      | _ => none
/-- One or more comma-separated object members up to the closing brace. -/
def parseMembers : Nat → List Char → Option (List (String × JVal) × List Char)
  | 0, _ => none
  | fuel + 1, s =>
      match skipWs s with
      | '"' :: r => do
          let (kcs, r1) ← parseStringBody r
          match skipWs r1 with
          | ':' :: r2 => do
              let (v, r3) ← parseValue fuel r2
              (match skipWs r3 with
               | ',' :: r4 => (parseMembers fuel r4).map fun p => ((String.mk kcs, v) :: p.1, p.2)
               | '\x7d' :: r4 => some ([(String.mk kcs, v)], r4)
               | _ => none)
          | _ => none
      | _ => none
end

/-- `json.loads`: one JSON document with nothing but whitespace after it. -/
def parseJson (s : String) : Option JVal :=
  match parseValue (s.length + 1) s.toList with
  | some (v, r) => if (skipWs r).isEmpty then some v else none
  | none => none

/-! ## Fuel accounting and number well-formedness -/

mutual
/-- Fuel sufficient for `parseValue` on this value's serialization. -/
def jvalFuel : JVal → Nat
  | .jnull => 1
  | .jbool _ => 1
  | .jnum _ => 1
  | .jstr _ => 1
  | .jarr xs => 1 + itemsFuel xs
  | .jobj kvs => 1 + membersFuel kvs
/-- Fuel sufficient for `parseItems` on a serialized item list. -/
def itemsFuel : List JVal → Nat
  | [] => 0
  | x :: xs => 1 + jvalFuel x + itemsFuel xs
/-- Fuel sufficient for `parseMembers` on a serialized member list. -/
def membersFuel : List (String × JVal) → Nat
  | [] => 0
  | kv :: kvs => 1 + jvalFuel kv.2 + membersFuel kvs
end

/-- The denominator divides a power of ten: the number has a finite decimal
expansion (true of every IEEE-754 double, hence of every number a real
record contains; an exponent up to the denominator itself always
suffices). -/
def hasFiniteDecimal (q : Rat) : Bool :=
  ((List.range (q.den + 1)).find? fun k => q.den ∣ 10 ^ k).isSome

mutual
/-- Every number in the value has a finite decimal expansion. -/
def wfNums : JVal → Bool
  | .jnull => true
  | .jbool _ => true
  | .jnum q => hasFiniteDecimal q
  | .jstr _ => true
  | .jarr xs => wfNumsItems xs
  | .jobj kvs => wfNumsMembers kvs
def wfNumsItems : List JVal → Bool
  | [] => true
  | x :: xs => wfNums x && wfNumsItems xs
def wfNumsMembers : List (String × JVal) → Bool
  | [] => true
  | kv :: kvs => wfNums kv.2 && wfNumsMembers kvs
end

/-! ## Sample collaborator data for concrete instantiations -/

/-- A page with an embedded image, some text, no tables and no extracted
words. -/
def samplePageZeroWords : Page :=
  { extract_text := .ok (some "hello world"),
    extract_tables := .ok [],
    extract_words := .ok [],
    images := [()],
    width := 612, height := 792 }

/-- Two extracted word records. -/
def sampleWords : List Word := [⟨"ab"⟩, ⟨"c"⟩]

/-- A page with two extracted words. -/
def samplePageTwoWords : Page :=
  { extract_text := .ok (some "ab c"),
    extract_tables := .ok [],
    extract_words := .ok sampleWords,
    images := [],
    width := 612, height := 792 }

/-! ## C1 and C3: the page-content record -/

/-- Inversion for a successful `extract_page_content`: all three extraction
capabilities succeeded and the result is the content dict of their
values. -/
theorem extract_page_content_cases (page : Page) (c : JVal)
    (h : extract_page_content page = .ok c) :
    ∃ t tables words, page.extract_text = .ok t ∧ page.extract_tables = .ok tables ∧
      page.extract_words = .ok words ∧ c = pageContentJ t tables words := by
  rw [extract_page_content] at h
  rcases ht : page.extract_text with e | t <;> rw [ht] at h
  · exact Except.noConfusion h
  · rcases htb : page.extract_tables with e | tables <;> rw [htb] at h
    · exact Except.noConfusion h
    · rcases hw : page.extract_words with e | words <;> rw [hw] at h
      · exact Except.noConfusion h
      · refine ⟨t, tables, words, rfl, rfl, rfl, ?_⟩
        injection h with h
        exact h.symm

/-- C1 (amended): the `images` entry of every successfully extracted page
content is `false`, regardless of the page's image list — the flag is a
placeholder, image detection is not implemented. -/
theorem images_flag_always_false (page : Page) (c : JVal)
    (h : extract_page_content page = .ok c) : getField c "images" = .jbool false := by
  obtain ⟨t, tables, words, -, -, -, rfl⟩ := extract_page_content_cases page c h
  rfl

/-- Witness: the amended C1 theorem applied to a concrete page. -/
theorem images_flag_always_false_witness :
    getField (pageContentJ (some "hello world") [] []) "images" = .jbool false :=
  images_flag_always_false samplePageZeroWords (pageContentJ (some "hello world") [] []) rfl

/-- C1 (counterexample): a page whose image list is non-empty still gets
`images = false`, refuting the claimed biconditional. -/
theorem images_flag_claim_counterexample :
    samplePageZeroWords.images ≠ [] ∧
    (extract_page_content samplePageZeroWords).map (fun c => getField c "images") =
      .ok (.jbool false) ∧
    JVal.jbool false ≠ JVal.jbool true :=
  ⟨by decide, rfl, fun h => by cases h⟩

/-- C3 (amended): a page whose word extraction returns zero words gets the
empty *list* `[]` as its `layout` (the untouched placeholder, not an empty
mapping), and the mean-word-length division only happens for a non-empty
word list, whose length — the divisor — is then non-zero. -/
theorem layout_guard (page : Page) (c : JVal)
    (h : extract_page_content page = .ok c) :
    (page.extract_words = .ok [] → getField c "layout" = .jarr []) ∧
    (∀ ws, page.extract_words = .ok ws → ws ≠ [] →
      getField c "layout" = .jobj [("word_count", .jnum (ws.length : Rat)),
                                   ("avg_word_length", .jnum (avgWordLength ws))] ∧
      (ws.length : Rat) ≠ 0) := by
  obtain ⟨t, tables, words, -, -, hw, rfl⟩ := extract_page_content_cases page c h
  have hg : getField (pageContentJ t tables words) "layout" =
      (if words.isEmpty then (.jarr [] : JVal)
       else .jobj [("word_count", .jnum (words.length : Rat)),
                   ("avg_word_length", .jnum (avgWordLength words))]) := rfl
  constructor
  · intro h0
    rw [hw] at h0
    injection h0 with h0
    subst h0
    simp [hg]
  · intro ws hws hne
    rw [hw] at hws
    injection hws with hws
    subst hws
    have hemp : words.isEmpty = false := by simpa [List.isEmpty_iff] using hne
    refine ⟨by simp [hg, hemp], ?_⟩
    have : words.length ≠ 0 := by simpa [List.length_eq_zero] using hne
    exact_mod_cast this

/-- Witness: the amended C3 theorem at a zero-word page and at a two-word
page. -/
theorem layout_guard_witness :
    (getField (pageContentJ (some "hello world") [] []) "layout" = .jarr []) ∧
    (getField (pageContentJ (some "ab c") [] sampleWords) "layout" =
        .jobj [("word_count", .jnum (sampleWords.length : Rat)),
               ("avg_word_length", .jnum (avgWordLength sampleWords))] ∧
      (sampleWords.length : Rat) ≠ 0) :=
  ⟨(layout_guard samplePageZeroWords (pageContentJ (some "hello world") [] []) rfl).1 rfl,
   (layout_guard samplePageTwoWords (pageContentJ (some "ab c") [] sampleWords) rfl).2
     sampleWords rfl (by simp [sampleWords])⟩

/-- C3 (counterexample): the zero-word layout is the empty list, which is
not the empty mapping the claim promises. -/
theorem layout_claim_counterexample :
    (extract_page_content samplePageZeroWords).map (fun c => getField c "layout") =
      .ok (.jarr []) ∧
    JVal.jarr [] ≠ JVal.jobj [] :=
  ⟨rfl, fun h => by cases h⟩

/-! ## C5, C6, C8: convert -/

/-- Whether an extraction capability succeeded. -/
def exOk {α : Type} : Except String α → Bool
  | .ok _ => true
  | .error _ => false

/-- The `"pages"` list of a record (empty on a shape `convert` never
produces). -/
def pagesOf (r : JVal) : List JVal :=
  match getField r "pages" with
  | .jarr l => l
  | _ => []

/-- An extraction failure on any capability of a page makes
`extract_page_content` raise. -/
theorem extract_page_content_error (page : Page)
    (h : exOk page.extract_text = false ∨ exOk page.extract_tables = false ∨
         exOk page.extract_words = false) :
    ∃ e, extract_page_content page = .error e := by
  rw [extract_page_content]
  rcases ht : page.extract_text with e | t
  · exact ⟨e, rfl⟩
  · rcases htb : page.extract_tables with e | tables
    · exact ⟨e, rfl⟩
    · rcases hw : page.extract_words with e | words
      · exact ⟨e, rfl⟩
      · rw [ht, htb, hw] at h
        rcases h with h | h | h <;> exact absurd h (by simp [exOk])

/-- A failing page anywhere in the enumeration makes the page loop raise. -/
theorem buildPages_error (l : List (Nat × Page)) (ip : Nat × Page) (hmem : ip ∈ l)
    (he : ∃ e, extract_page_content ip.2 = .error e) :
    ∃ e, buildPages l = .error e := by
  induction l with
  | nil => cases hmem
  | cons hd tl ih =>
      rcases List.mem_cons.mp hmem with rfl | hm
      · obtain ⟨e, he⟩ := he
        exact ⟨e, by rw [buildPages, he]; rfl⟩
      · rcases h2 : extract_page_content hd.2 with e2 | c
        · exact ⟨e2, by rw [buildPages, h2]; rfl⟩
        · obtain ⟨e, htl⟩ := ih hm
          exact ⟨e, by rw [buildPages, h2, htl]; rfl⟩

/-- C8: `convert` fails as a single unit — if opening raises, or any
extraction capability of any page raises, the result is the `None`
sentinel; no partial record is returned. -/
theorem convert_error_unit (opened : Except String PDF) :
    ((∃ e, opened = .error e) → convert opened = none) ∧
    (∀ pdf page, opened = .ok pdf → page ∈ pdf.pages →
      (exOk page.extract_text = false ∨ exOk page.extract_tables = false ∨
       exOk page.extract_words = false) →
      convert opened = none) := by
  constructor
  · rintro ⟨e, rfl⟩
    rfl
  · rintro pdf page rfl hmem hbad
    have hpe := extract_page_content_error page hbad
    have hidx : ∀ (l : List Page) (n : Nat), page ∈ l → ∃ i, (i, page) ∈ l.enumFrom n := by
      intro l
      induction l with
      | nil => intro n h0; cases h0
      | cons a t ih =>
          intro n h0
          rcases List.mem_cons.mp h0 with rfl | hm
          · exact ⟨n, by simp [List.enumFrom]⟩
          · obtain ⟨i, hi⟩ := ih (n + 1) hm
            exact ⟨i, by simp [List.enumFrom, hi]⟩
    obtain ⟨i, hi⟩ := hidx pdf.pages 1 hmem
    obtain ⟨e, hb⟩ := buildPages_error (pdf.pages.enumFrom 1) (i, page) hi hpe
    show (match convertBody pdf with
          | .ok r => some r
          | .error _ => none : Option JVal) = none
    rw [convertBody, hb]
    rfl

/-- Witnesses for C8: a failed open, and a page whose text extraction
raises, both produce the sentinel. -/
def badPage : Page :=
  { extract_text := .error "broken content stream",
    extract_tables := .ok [],
    extract_words := .ok [],
    images := [],
    width := 612, height := 792 }

/-- A document whose second page fails to extract. -/
def badPDF : PDF := { metadata := none, pages := [samplePageZeroWords, badPage] }

/-- Witness: C8 applied to a failed open and to a failing page. -/
theorem convert_error_unit_witness :
    convert (.error "no such file") = none ∧ convert (.ok badPDF) = none :=
  ⟨(convert_error_unit (.error "no such file")).1 ⟨"no such file", rfl⟩,
   (convert_error_unit (.ok badPDF)).2 badPDF badPage rfl (by simp [badPDF])
     (Or.inl rfl)⟩

/-- Inversion for a successful `convert`: the open succeeded and the body
ran to completion. -/
theorem convert_ok_inv (opened : Except String PDF) (r : JVal)
    (h : convert opened = some r) :
    ∃ pdf, opened = .ok pdf ∧ convertBody pdf = .ok r := by
  rcases opened with e | pdf
  · exact Option.noConfusion h
  · refine ⟨pdf, rfl, ?_⟩
    rw [convert] at h
    rcases hb : convertBody pdf with e | r2
    · rw [show (do let p ← Except.ok pdf; convertBody p : Except String JVal) =
            convertBody pdf from rfl, hb] at h
      exact Option.noConfusion h
    · rw [show (do let p ← Except.ok pdf; convertBody p : Except String JVal) =
            convertBody pdf from rfl, hb] at h
      injection h with h
      rw [h]

/-- Inversion for a successful `convertBody`: the page loop succeeded and
the record is the dict literal built from its output. -/
theorem convertBody_ok_inv (pdf : PDF) (r : JVal) (h : convertBody pdf = .ok r) :
    ∃ out, buildPages (pdf.pages.enumFrom 1) = .ok out ∧
      r = .jobj [("metadata",
                   .jobj ((extract_metadata pdf.metadata).map fun kv => (kv.1, JVal.jstr kv.2))),
                 ("pages", .jarr out),
                 ("stats", .jobj [("total_pages", .jnum (pdf.pages.length : Rat)),
                                  ("total_words",
                                   .jnum (((out.map fun p => (pysplit (pageText p)).length).sum : Nat) : Rat))])] := by
  rw [convertBody] at h
  rcases hb : buildPages (pdf.pages.enumFrom 1) with e | out <;> rw [hb] at h
  · exact Except.noConfusion h
  · refine ⟨out, rfl, ?_⟩
    injection h with h
    exact h.symm

/-- Page records produced by the loop, element by element. -/
theorem buildPages_ok_forall (l : List (Nat × Page)) (out : List JVal)
    (h : buildPages l = .ok out) :
    List.Forall₂ (fun ip pj => ∃ c, extract_page_content ip.2 = .ok c ∧
      pj = pageJ ip.1 ip.2 c) l out := by
  induction l generalizing out with
  | nil =>
      rw [buildPages] at h
      injection h with h
      rw [← h]
      exact List.Forall₂.nil
  | cons hd tl ih =>
      rw [buildPages] at h
      rcases hc : extract_page_content hd.2 with e | c <;> rw [hc] at h
      · exact Except.noConfusion h
      · rcases htl : buildPages tl with e | outtl <;> rw [htl] at h
        · exact Except.noConfusion h
        · injection h with h
          rw [← h]
          exact List.Forall₂.cons ⟨c, hc, rfl⟩ (ih outtl htl)

/-- C6: a successful conversion of an `N`-page document yields exactly `N`
page records, numbered `1..N` in order, and `total_pages` equals the
length of the output page list. -/
theorem pages_numbering (pdf : PDF) (r : JVal) (h : convert (.ok pdf) = some r) :
    (pagesOf r).length = pdf.pages.length ∧
    getField (getField r "stats") "total_pages" = .jnum ((pagesOf r).length : Rat) ∧
    ∀ i (hi : i < (pagesOf r).length),
      getField ((pagesOf r).get ⟨i, hi⟩) "page_number" = .jnum ((i + 1 : Nat) : Rat) := by
  obtain ⟨pdf2, hopen, hbody⟩ := convert_ok_inv (.ok pdf) r h
  injection hopen with hopen
  subst hopen
  obtain ⟨out, hbp, hr⟩ := convertBody_ok_inv pdf r hbody
  subst hr
  have hforall := buildPages_ok_forall (pdf.pages.enumFrom 1) out hbp
  have hlen : out.length = pdf.pages.length := by
    rw [← hforall.length_eq, List.enumFrom_length]
  refine ⟨hlen, ?_, ?_⟩
  · show JVal.jnum ((pdf.pages.length : Nat) : Rat) = JVal.jnum ((out.length : Nat) : Rat)
    rw [hlen]
  · intro i hi
    have hi2 : i < out.length := hi
    have hi3 : i < (pdf.pages.enumFrom 1).length := by
      rw [List.enumFrom_length, ← hlen]; exact hi2
    have hrel := (List.forall₂_iff_get.mp hforall).2 i hi3 hi2
    obtain ⟨c, -, hpj⟩ := hrel
    show getField (out.get ⟨i, hi2⟩) "page_number" = _
    rw [hpj]
    have hip : (pdf.pages.enumFrom 1).get ⟨i, hi3⟩ =
        (1 + i, pdf.pages.get ⟨i, by rw [List.enumFrom_length] at hi3; exact hi3⟩) := by
      simp [List.getElem_enumFrom, List.get_eq_getElem]
    rw [hip]
    show JVal.jnum ((1 + i : Nat) : Rat) = JVal.jnum ((i + 1 : Nat) : Rat)
    rw [Nat.add_comm 1 i]

/-- C5: `total_words` in a successful conversion equals the sum over the
output pages of the whitespace-token count of each page's `text`. -/
theorem total_words_sum (opened : Except String PDF) (r : JVal)
    (h : convert opened = some r) :
    getField (getField r "stats") "total_words" =
      .jnum ((((pagesOf r).map fun p => (pysplit (pageText p)).length).sum : Nat) : Rat) := by
  obtain ⟨pdf, -, hbody⟩ := convert_ok_inv opened r h
  obtain ⟨out, -, hr⟩ := convertBody_ok_inv pdf r hbody
  subst hr
  rfl

/-- A document that converts successfully end to end. -/
def samplePDF : PDF :=
  { metadata := some [("Title", "Report"), ("CreationDate", "D:20230115120000")],
    pages := [samplePageZeroWords, samplePageTwoWords] }

/-- The record `convert` produces for `samplePDF`. -/
def sampleRecord : JVal := (convert (.ok samplePDF)).getD .jnull

/-- Witness: C6 applied to the two-page sample document. -/
theorem pages_numbering_witness :
    (pagesOf sampleRecord).length = samplePDF.pages.length ∧
    getField (getField sampleRecord "stats") "total_pages" =
      .jnum ((pagesOf sampleRecord).length : Rat) ∧
    ∀ i (hi : i < (pagesOf sampleRecord).length),
      getField ((pagesOf sampleRecord).get ⟨i, hi⟩) "page_number" =
        .jnum ((i + 1 : Nat) : Rat) :=
  pages_numbering samplePDF sampleRecord rfl

/-- Witness: C5 applied to the sample document. -/
theorem total_words_sum_witness :
    getField (getField sampleRecord "stats") "total_words" =
      .jnum ((((pagesOf sampleRecord).map fun p => (pysplit (pageText p)).length).sum : Nat) : Rat) :=
  total_words_sum (.ok samplePDF) sampleRecord rfl

/-! ## C7: recognized metadata fields only -/

/-- C7: every entry of the extracted metadata is keyed by one of the eight
recognized field names and comes from a raw entry that was actually
present — unrecognized raw entries are dropped, absent fields are omitted
(rather than mapped to a null), and each kept value is the processed raw
string. -/
theorem metadata_keys_recognized (raw : Option (List (String × String))) (field v : String)
    (h : (field, v) ∈ extract_metadata raw) :
    field ∈ metadata_fields ∧
      ∃ v0, lookupRaw (raw.getD []) field = some v0 ∧ v = mdValue field v0 := by
  rw [extract_metadata, List.mem_filterMap] at h
  obtain ⟨f2, hf2, hmap⟩ := h
  rcases hl : lookupRaw (raw.getD []) f2 with _ | v0 <;> rw [hl] at hmap
  · cases hmap
  · injection hmap with hmap
    have hfe : f2 = field := congrArg Prod.fst hmap
    have hve : mdValue f2 v0 = v := congrArg Prod.snd hmap
    subst hfe
    exact ⟨hf2, v0, hl, hve.symm⟩

/-- Witness: C7 applied to a raw dictionary holding an unrecognized key
next to a recognized one. -/
theorem metadata_keys_recognized_witness :
    "Title" ∈ metadata_fields ∧
      ∃ v0, lookupRaw ((some [("Foo", "x"), ("Title", "Report")]).getD []) "Title" = some v0 ∧
        ("Report" : String) = mdValue "Title" v0 :=
  metadata_keys_recognized (some [("Foo", "x"), ("Title", "Report")]) "Title" "Report"
    (by decide)

/-! ## C4 and C10: date normalization

The canonical-parse lemmas show that on a well-formed
`YYYYMMDDHHMMSS` rendering the backtracking matcher commits to the
two-digit alternative of every directive: for each field the alternatives
ordered before the matching one fail outright, and the matching one's
continuation succeeds, so no backtracking occurs. -/

theorem dval_digitChar (d : Nat) (h : d ≤ 9) : dval (digitChar d) = d := by
  interval_cases d <;> rfl

theorem digitChar_toNat (d : Nat) (h : d ≤ 9) : (digitChar d).toNat = 48 + d := by
  interval_cases d <;> rfl

theorem isDigitCh_digitChar (d : Nat) (h : d ≤ 9) : isDigitCh (digitChar d) = true := by
  interval_cases d <;> rfl

/-- `firstHit` commits to a successful head attempt. -/
theorem firstHit_some {α : Type} (a : α) (l : List (Option α)) :
    firstHit (some a :: l) = some a := rfl

/-- `firstHit` skips a failed head attempt. -/
theorem firstHit_none {α : Type} (l : List (Option α)) : firstHit (none :: l) = firstHit l := rfl

/-- A matching first alternative with a succeeding continuation settles the
field (leftmost-priority: no later alternative is consulted). -/
theorem runFields_commit (alt : FieldAlt) (alts : List FieldAlt) (fs : List (List FieldAlt))
    (s s1 : List Char) (v : Nat) (vs : List Nat) (s2 : List Char)
    (hm : alt s = some (v, s1)) (hc : runFields fs s1 = some (vs, s2)) :
    runFields ((alt :: alts) :: fs) s = some (v :: vs, s2) := by
  rw [runFields, List.map_cons]
  simp only [hm, hc]
  rfl

/-- A non-matching alternative is skipped. -/
theorem runFields_skip (alt : FieldAlt) (alts : List FieldAlt) (fs : List (List FieldAlt))
    (s : List Char) (hm : alt s = none) :
    runFields ((alt :: alts) :: fs) s = runFields (alts :: fs) s := by
  conv_rhs => rw [runFields]
  rw [runFields, List.map_cons]
  simp only [hm]
  rfl

/-- `alt2` on a two-digit rendering: the guard decides, the value is the
number itself. -/
theorem alt2_pad2 (p1 p2 : Char → Bool) (n : Nat) (hn : n ≤ 99) (s : List Char) :
    alt2 p1 p2 (pad2 n ++ s) =
      (if p1 (digitChar (n / 10)) && p2 (digitChar (n % 10)) then some (n, s) else none) := by
  simp only [alt2, pad2, List.cons_append, List.nil_append]
  rw [dval_digitChar (n / 10) (by omega), dval_digitChar (n % 10) (by omega), Nat.div_add_mod]

/-- `%Y` consumes exactly the four-digit year. -/
theorem yearAlt_pad4 (y : Nat) (hy : y ≤ 9999) (s : List Char) :
    yearAlt (pad4 y ++ s) = some (y, s) := by
  simp only [yearAlt, pad4, List.cons_append, List.nil_append]
  rw [isDigitCh_digitChar (y / 1000) (by omega), isDigitCh_digitChar (y / 100 % 10) (by omega),
      isDigitCh_digitChar (y / 10 % 10) (by omega), isDigitCh_digitChar (y % 10) (by omega)]
  rw [dval_digitChar (y / 1000) (by omega), dval_digitChar (y / 100 % 10) (by omega),
      dval_digitChar (y / 10 % 10) (by omega), dval_digitChar (y % 10) (by omega)]
  simp only [Bool.and_self, if_true]
  congr 2
  omega

/-! Guard evaluations for each character class on a digit character. -/

theorem guard19 (d : Nat) (h1 : 1 ≤ d) (h2 : d ≤ 9) : chIn '1' '9' (digitChar d) = true := by
  interval_cases d <;> rfl

theorem guard02 (d : Nat) (h : d ≤ 2) : chIn '0' '2' (digitChar d) = true := by
  interval_cases d <;> rfl

theorem guard01 (d : Nat) (h : d ≤ 1) : chIn '0' '1' (digitChar d) = true := by
  interval_cases d <;> rfl

theorem guard03 (d : Nat) (h : d ≤ 3) : chIn '0' '3' (digitChar d) = true := by
  interval_cases d <;> rfl

theorem guard05 (d : Nat) (h : d ≤ 5) : chIn '0' '5' (digitChar d) = true := by
  interval_cases d <;> rfl

theorem guard12 (d : Nat) (h1 : 1 ≤ d) (h2 : d ≤ 2) : chIn '1' '2' (digitChar d) = true := by
  interval_cases d <;> rfl

theorem guardNot6 (d : Nat) (h : d ≤ 5) : chEq '6' (digitChar d) = false := by
  interval_cases d <;> rfl

theorem specY_step (y : Nat) (hy : y ≤ 9999) (fs : List (List FieldAlt)) (s : List Char)
    (vs : List Nat) (s2 : List Char) (hc : runFields fs s = some (vs, s2)) :
    runFields (specY :: fs) (pad4 y ++ s) = some (y :: vs, s2) := by
  rw [specY]
  exact runFields_commit _ _ _ _ _ _ _ _ (yearAlt_pad4 y hy s) hc

theorem specMon_step (mo : Nat) (h1 : 1 ≤ mo) (h2 : mo ≤ 12) (fs : List (List FieldAlt))
    (s : List Char) (vs : List Nat) (s2 : List Char)
    (hc : runFields fs s = some (vs, s2)) :
    runFields (specMon :: fs) (pad2 mo ++ s) = some (mo :: vs, s2) := by
  rw [specMon]
  rcases Nat.lt_or_ge mo 10 with hlt | hge
  · have hd1 : mo / 10 = 0 := by omega
    rw [runFields_skip _ _ _ _ (by rw [alt2_pad2 _ _ mo (by omega), hd1]; rfl)]
    refine runFields_commit _ _ _ _ _ _ _ _ ?_ hc
    rw [alt2_pad2 _ _ mo (by omega), hd1, guard19 (mo % 10) (by omega) (by omega)]
    rfl
  · have hd1 : mo / 10 = 1 := by omega
    refine runFields_commit _ _ _ _ _ _ _ _ ?_ hc
    rw [alt2_pad2 _ _ mo (by omega), hd1, guard02 (mo % 10) (by omega)]
    rfl

theorem specDay_step (dy : Nat) (h1 : 1 ≤ dy) (h2 : dy ≤ 31) (fs : List (List FieldAlt))
    (s : List Char) (vs : List Nat) (s2 : List Char)
    (hc : runFields fs s = some (vs, s2)) :
    runFields (specDay :: fs) (pad2 dy ++ s) = some (dy :: vs, s2) := by
  rw [specDay]
  rcases Nat.lt_or_ge dy 10 with hlt | hge
  · have hd1 : dy / 10 = 0 := by omega
    rw [runFields_skip _ _ _ _ (by rw [alt2_pad2 _ _ dy (by omega), hd1]; rfl)]
    rw [runFields_skip _ _ _ _ (by rw [alt2_pad2 _ _ dy (by omega), hd1]; rfl)]
    refine runFields_commit _ _ _ _ _ _ _ _ ?_ hc
    rw [alt2_pad2 _ _ dy (by omega), hd1, guard19 (dy % 10) (by omega) (by omega)]
    rfl
  · rcases Nat.lt_or_ge dy 30 with hlt30 | hge30
    · have hd1 : dy / 10 = 1 ∨ dy / 10 = 2 := by omega
      rw [runFields_skip _ _ _ _ (by
        rw [alt2_pad2 _ _ dy (by omega)]
        rcases hd1 with hd1 | hd1 <;> rw [hd1] <;> rfl)]
      refine runFields_commit _ _ _ _ _ _ _ _ ?_ hc
      rw [alt2_pad2 _ _ dy (by omega), guard12 (dy / 10) (by omega) (by omega),
          isDigitCh_digitChar (dy % 10) (by omega)]
      rfl
    · have hd1 : dy / 10 = 3 := by omega
      refine runFields_commit _ _ _ _ _ _ _ _ ?_ hc
      rw [alt2_pad2 _ _ dy (by omega), hd1, guard01 (dy % 10) (by omega)]
      rfl

theorem specHour_step (hh : Nat) (h2 : hh ≤ 23) (fs : List (List FieldAlt))
    (s : List Char) (vs : List Nat) (s2 : List Char)
    (hc : runFields fs s = some (vs, s2)) :
    runFields (specHour :: fs) (pad2 hh ++ s) = some (hh :: vs, s2) := by
  rw [specHour]
  rcases Nat.lt_or_ge hh 20 with hlt | hge
  · have hd1 : hh / 10 = 0 ∨ hh / 10 = 1 := by omega
    rw [runFields_skip _ _ _ _ (by
      rw [alt2_pad2 _ _ hh (by omega)]
      rcases hd1 with hd1 | hd1 <;> rw [hd1] <;> rfl)]
    refine runFields_commit _ _ _ _ _ _ _ _ ?_ hc
    rw [alt2_pad2 _ _ hh (by omega), guard01 (hh / 10) (by omega),
        isDigitCh_digitChar (hh % 10) (by omega)]
    rfl
  · have hd1 : hh / 10 = 2 := by omega
    refine runFields_commit _ _ _ _ _ _ _ _ ?_ hc
    rw [alt2_pad2 _ _ hh (by omega), hd1, guard03 (hh % 10) (by omega)]
    rfl

theorem specMin_step (mm : Nat) (h2 : mm ≤ 59) (fs : List (List FieldAlt))
    (s : List Char) (vs : List Nat) (s2 : List Char)
    (hc : runFields fs s = some (vs, s2)) :
    runFields (specMin :: fs) (pad2 mm ++ s) = some (mm :: vs, s2) := by
  rw [specMin]
  refine runFields_commit _ _ _ _ _ _ _ _ ?_ hc
  rw [alt2_pad2 _ _ mm (by omega), guard05 (mm / 10) (by omega),
      isDigitCh_digitChar (mm % 10) (by omega)]
  rfl

theorem specSec_step (ss : Nat) (h2 : ss ≤ 59) (fs : List (List FieldAlt))
    (s : List Char) (vs : List Nat) (s2 : List Char)
    (hc : runFields fs s = some (vs, s2)) :
    runFields (specSec :: fs) (pad2 ss ++ s) = some (ss :: vs, s2) := by
  rw [specSec]
  rw [runFields_skip _ _ _ _ (by
    rw [alt2_pad2 _ _ ss (by omega), guardNot6 (ss / 10) (by omega)]
    rfl)]
  refine runFields_commit _ _ _ _ _ _ _ _ ?_ hc
  rw [alt2_pad2 _ _ ss (by omega), guard05 (ss / 10) (by omega),
      isDigitCh_digitChar (ss % 10) (by omega)]
  rfl

/-- The canonical 14-digit rendering. -/
def canonical14 (y mo dy hh mm ss : Nat) : List Char :=
  pad4 y ++ (pad2 mo ++ (pad2 dy ++ (pad2 hh ++ (pad2 mm ++ pad2 ss))))

/-- On a canonical 14-digit timestamp the matcher recovers exactly its six
fields and consumes the whole input. -/
theorem strptime_canonical (y mo dy hh mm ss : Nat)
    (hy : y ≤ 9999) (hmo1 : 1 ≤ mo) (hmo2 : mo ≤ 12) (hdy1 : 1 ≤ dy) (hdy2 : dy ≤ 31)
    (hhh : hh ≤ 23) (hmm : mm ≤ 59) (hss : ss ≤ 59) :
    strptimeYmdHms (canonical14 y mo dy hh mm ss) = some (y, mo, dy, hh, mm, ss) := by
  rw [strptimeYmdHms, canonical14]
  rw [specY_step y hy _ _ _ _
      (specMon_step mo hmo1 hmo2 _ _ _ _
        (specDay_step dy hdy1 hdy2 _ _ _ _
          (specHour_step hh hhh _ _ _ _
            (specMin_step mm hmm _ (pad2 ss) _ _
              (specSec_step ss hss [] [] [] [] rfl)))))]
  rfl

/-- `canonical14` really is 14 characters. -/
theorem canonical14_length (y mo dy hh mm ss : Nat) :
    (canonical14 y mo dy hh mm ss).length = 14 := by
  simp [canonical14, pad4, pad2]

/-- No month has more than 31 days. -/
theorem daysInMonth_le (y mo : Nat) : daysInMonth y mo ≤ 31 := by
  simp only [daysInMonth]
  split
  · split <;> omega
  · split <;> omega

/-- Normalization of a well-formed `D:` date: the first 14 digits parse
canonically and any trailing characters are ignored. -/
theorem pdfDateToIso_canonical (y mo dy hh mm ss : Nat)
    (hy : y ≤ 9999) (hmo1 : 1 ≤ mo) (hmo2 : mo ≤ 12) (hdy1 : 1 ≤ dy) (hdy2 : dy ≤ 31)
    (hhh : hh ≤ 23) (hmm : mm ≤ 59) (hss : ss ≤ 59)
    (hvalid : validDatetime y mo dy hh mm ss = true) (t : List Char) :
    pdfDateToIso (String.mk ('D' :: ':' :: (canonical14 y mo dy hh mm ss ++ t))) =
      some (String.mk (isoChars y mo dy hh mm ss)) := by
  rw [pdfDateToIso]
  have htake : (('D' :: ':' :: (canonical14 y mo dy hh mm ss ++ t)).drop 2).take 14 =
      canonical14 y mo dy hh mm ss := by
    show (canonical14 y mo dy hh mm ss ++ t).take 14 = canonical14 y mo dy hh mm ss
    rw [show (14 : Nat) = (canonical14 y mo dy hh mm ss).length from
        (canonical14_length y mo dy hh mm ss).symm]
    exact List.take_left _ _
  rw [show (String.mk ('D' :: ':' :: (canonical14 y mo dy hh mm ss ++ t))).toList =
      'D' :: ':' :: (canonical14 y mo dy hh mm ss ++ t) from rfl]
  rw [htake, strptime_canonical y mo dy hh mm ss hy hmo1 hmo2 hdy1 hdy2 hhh hmm hss]
  simp only [hvalid, if_true]

/-- C4 (amended): for the two `Date`-named recognized fields, a raw value
of the form `D:` + 14 digits with valid calendar values (any trailing
characters allowed) is normalized to the corresponding ISO-8601 instant; a
raw value on which the flexible parse of the first 14 characters after the
prefix fails (or yields invalid calendar values) passes through unchanged,
as does a value not starting with `D:`.  (Unlike the original claim, the
set of normalized values is not exactly the `D:` + 14-digit pattern: the
parser's one-digit alternatives also normalize some shorter values.)  No
input makes the extraction raise. -/
theorem metadata_date_normalization (field : String)
    (hf : field = "CreationDate" ∨ field = "ModDate") :
    (∀ y mo dy hh mm ss (t : List Char),
        1 ≤ y → y ≤ 9999 → 1 ≤ mo → mo ≤ 12 → 1 ≤ dy → dy ≤ daysInMonth y mo →
        hh ≤ 23 → mm ≤ 59 → ss ≤ 59 →
        extract_metadata (some [(field,
            String.mk ('D' :: ':' :: (canonical14 y mo dy hh mm ss ++ t)))]) =
          [(field, String.mk (isoChars y mo dy hh mm ss))]) ∧
    (∀ raw, pdfDateToIso raw = none →
        extract_metadata (some [(field, raw)]) = [(field, raw)]) ∧
    (∀ raw, startsWithDColon raw = false →
        extract_metadata (some [(field, raw)]) = [(field, raw)]) := by
  have hx : ∀ raw : String, extract_metadata (some [(field, raw)]) =
      [(field, mdValue field raw)] := by
    rcases hf with rfl | rfl <;> exact fun raw => rfl
  have hsc : strContains field "Date" = true := by
    rcases hf with rfl | rfl <;> rfl
  refine ⟨?_, ?_, ?_⟩
  · intro y mo dy hh mm ss t hy1 hy2 hmo1 hmo2 hdy1 hdy2 hhh hmm2 hss
    have hdy31 : dy ≤ 31 := le_trans hdy2 (daysInMonth_le y mo)
    have hvalid : validDatetime y mo dy hh mm ss = true := by
      simp only [validDatetime, Bool.and_eq_true, decide_eq_true_eq]
      omega
    rw [hx]
    have hmd : mdValue field (String.mk ('D' :: ':' :: (canonical14 y mo dy hh mm ss ++ t))) =
        String.mk (isoChars y mo dy hh mm ss) := by
      simp only [mdValue, hsc, Bool.true_and]
      rw [show startsWithDColon
            (String.mk ('D' :: ':' :: (canonical14 y mo dy hh mm ss ++ t))) = true from rfl]
      rw [pdfDateToIso_canonical y mo dy hh mm ss hy2 hmo1 hmo2 hdy1 hdy31 hhh hmm2 hss hvalid t]
      rfl
    rw [hmd]
  · intro raw hnone
    rw [hx]
    cases hs : startsWithDColon raw
    · have hmd : mdValue field raw = raw := by simp [mdValue, hs]
      rw [hmd]
    · have hmd : mdValue field raw = raw := by simp [mdValue, hsc, hs, hnone]
      rw [hmd]
  · intro raw hs
    rw [hx]
    have hmd : mdValue field raw = raw := by simp [mdValue, hs]
    rw [hmd]

/-- Witness: the amended C4 theorem normalizing a timezone-suffixed
creation date, and passing a 13-digit-month-impossible value through. -/
theorem metadata_date_normalization_witness :
    extract_metadata (some [("CreationDate",
        String.mk ('D' :: ':' :: (canonical14 2023 1 15 12 0 0 ++ ('+' :: '0' :: '5' :: '0' :: '0' :: []))))]) =
      [("CreationDate", String.mk (isoChars 2023 1 15 12 0 0))] ∧
    extract_metadata (some [("ModDate", "D:20231315120000")]) =
      [("ModDate", "D:20231315120000")] :=
  ⟨(metadata_date_normalization "CreationDate" (Or.inl rfl)).1 2023 1 15 12 0 0
      ('+' :: '0' :: '5' :: '0' :: '0' :: []) (by decide) (by decide) (by decide) (by decide)
      (by decide) (by decide) (by decide) (by decide) (by decide),
   (metadata_date_normalization "ModDate" (Or.inr rfl)).2.1 "D:20231315120000" rfl⟩

/-- C4 (counterexample): `D:2023115120000` carries only 13 digits after
the prefix — it does not match the claimed `D:` + at-least-14-digit
pattern — yet the code normalizes it instead of passing it through
byte-for-byte. -/
theorem metadata_date_claim_counterexample :
    ((("D:2023115120000" : String).toList.drop 2).takeWhile isDigitCh).length = 13 ∧
    extract_metadata (some [("CreationDate", "D:2023115120000")]) =
      [("CreationDate", "2023-11-05T12:00:00")] ∧
    ("2023-11-05T12:00:00" : String) ≠ "D:2023115120000" :=
  ⟨rfl, rfl, by decide⟩

/-- C10: when the first 14 characters after the `D:` prefix parse to a
valid timestamp, the emitted value is computed from those 14 characters
alone — arbitrary trailing characters (such as a timezone offset) are
discarded, so a successfully normalized value never carries timezone
information. -/
theorem date_normalization_truncates (field : String)
    (hf : field = "CreationDate" ∨ field = "ModDate")
    (s t : List Char) (hlen : s.length = 14)
    (y mo dy hh mm ss : Nat)
    (hparse : strptimeYmdHms s = some (y, mo, dy, hh, mm, ss))
    (hvalid : validDatetime y mo dy hh mm ss = true) :
    extract_metadata (some [(field, String.mk ('D' :: ':' :: (s ++ t)))]) =
      [(field, String.mk (isoChars y mo dy hh mm ss))] := by
  have hx : ∀ raw : String, extract_metadata (some [(field, raw)]) =
      [(field, mdValue field raw)] := by
    rcases hf with rfl | rfl <;> exact fun raw => rfl
  have hsc : strContains field "Date" = true := by
    rcases hf with rfl | rfl <;> rfl
  rw [hx]
  have hiso : pdfDateToIso (String.mk ('D' :: ':' :: (s ++ t))) =
      some (String.mk (isoChars y mo dy hh mm ss)) := by
    rw [pdfDateToIso]
    have htake : (('D' :: ':' :: (s ++ t)).drop 2).take 14 = s := by
      show (s ++ t).take 14 = s
      rw [show (14 : Nat) = s.length from hlen.symm]
      exact List.take_left _ _
    rw [show (String.mk ('D' :: ':' :: (s ++ t))).toList = 'D' :: ':' :: (s ++ t) from rfl]
    rw [htake, hparse]
    simp only [hvalid, if_true]
  have hmd : mdValue field (String.mk ('D' :: ':' :: (s ++ t))) =
      String.mk (isoChars y mo dy hh mm ss) := by
    simp only [mdValue, hsc, Bool.true_and]
    rw [show startsWithDColon (String.mk ('D' :: ':' :: (s ++ t))) = true from rfl]
    rw [hiso]
    rfl
  rw [hmd]

/-- Witness: C10 with a timezone-suffixed modification date: the suffix
`+0500` is discarded. -/
theorem date_normalization_truncates_witness :
    extract_metadata (some [("ModDate",
        String.mk ('D' :: ':' :: (("20230115120000" : String).toList ++ ('+' :: '0' :: '5' :: '0' :: '0' :: []))))]) =
      [("ModDate", String.mk (isoChars 2023 1 15 12 0 0))] :=
  date_normalization_truncates "ModDate" (Or.inr rfl)
    ("20230115120000" : String).toList ('+' :: '0' :: '5' :: '0' :: '0' :: []) rfl
    2023 1 15 12 0 0 rfl rfl

/-! ## C2: formatting of the serialized output -/

/-- C2 (amended): `save_as_json` takes no formatting parameter — its file
text is always the indent-2 rendering; the `--pretty` flag instead selects
the standard-output formatting in `main`, indent 2 when set and the
compact default otherwise. -/
theorem save_as_json_always_indent2 (d : JVal) :
    save_as_json_text d = dumps d (some 2) ∧
    mainStdoutText d true = dumps d (some 2) ∧
    mainStdoutText d false = dumps d none :=
  ⟨rfl, rfl, rfl⟩

/-- A one-field record, for exhibiting the two formattings. -/
def sampleSmallRecord : JVal := .jobj [("metadata", .jobj [])]

/-- C2 (counterexample): the file text written by `save_as_json` is the
indented rendering, not the compact one — there is no pretty/compact
selection in it. -/
theorem save_as_json_claim_counterexample :
    save_as_json_text sampleSmallRecord = "\x7b\n  \"metadata\": \x7b\x7d\n\x7d" ∧
    dumps sampleSmallRecord none = "\x7b\"metadata\": \x7b\x7d\x7d" ∧
    save_as_json_text sampleSmallRecord ≠ dumps sampleSmallRecord none :=
  ⟨rfl, rfl, by decide⟩

/-! ## C9: serialize/parse round-trip

The development follows the shape of a verified codec: per-token inverse
lemmas (numbers, strings), whitespace-absorption lemmas matching the
emitter's separator discipline, then one induction over a fuel bound
covering values, array items and object members simultaneously. -/

/-- Whitespace-only character lists (the emitter's padding). -/
def IsWsList (w : List Char) : Prop := ∀ c ∈ w, isJsonWs c = true

theorem skipWs_append (w s : List Char) (hw : IsWsList w) : skipWs (w ++ s) = skipWs s := by
  induction w with
  | nil => rfl
  | cons c t ih =>
      rw [List.cons_append, skipWs, List.dropWhile_cons, hw c (List.mem_cons_self c t)]
      exact ih fun x hx => hw x (List.mem_cons_of_mem c hx)

theorem skipWs_not_ws (c : Char) (s : List Char) (h : isJsonWs c = false) :
    skipWs (c :: s) = c :: s := by
  rw [skipWs, List.dropWhile_cons, h]
  rfl

theorem padNl_ws (i : Option Nat) (lvl : Nat) : IsWsList (padNl i lvl) := by
  intro c hc
  rcases i with _ | n
  · cases hc
  · rcases List.mem_cons.mp hc with rfl | hc2
    · rfl
    · rw [List.eq_of_mem_replicate hc2]
      rfl

theorem sepSp_ws (i : Option Nat) (lvl : Nat) : IsWsList (sepSp i lvl) := by
  intro c hc
  rcases i with _ | n
  · rcases List.mem_singleton.mp hc with rfl
    rfl
  · rcases List.mem_cons.mp hc with rfl | hc2
    · rfl
    · rw [List.eq_of_mem_replicate hc2]
      rfl

/-- A remainder that cannot extend a serialized number: empty, or headed
by something that is neither a digit nor `.`/`e`/`E`. -/
def numSafe : List Char → Bool
  | [] => true
  | c :: _ => !(isDigitCh c || c == '.' || c == 'e' || c == 'E')

theorem ws_not_digit (c : Char) (h : isJsonWs c = true) :
    isDigitCh c = false ∧ (c == '.') = false ∧ (c == 'e') = false ∧ (c == 'E') = false := by
  simp only [isJsonWs, Bool.or_eq_true, beq_iff_eq] at h
  rcases h with ((rfl | rfl) | rfl) | rfl <;> exact ⟨rfl, rfl, rfl, rfl⟩

/-- A whitespace run followed by a closing token cannot extend a number. -/
theorem numSafe_ws_close (w : List Char) (hw : IsWsList w) (c : Char) (rest : List Char)
    (hc : isDigitCh c = false ∧ (c == '.') = false ∧ (c == 'e') = false ∧ (c == 'E') = false) :
    numSafe (w ++ c :: rest) = true := by
  cases w with
  | nil =>
      rw [List.nil_append, numSafe, hc.1, hc.2.1, hc.2.2.1, hc.2.2.2]
      rfl
  | cons c0 t =>
      have h0 := ws_not_digit c0 (hw c0 (List.mem_cons_self c0 t))
      rw [List.cons_append, numSafe, h0.1, h0.2.1, h0.2.2.1, h0.2.2.2]
      rfl

theorem close_not_num (c : Char)
    (h : c = ']' ∨ c = '\x7d' ∨ c = ',') :
    isDigitCh c = false ∧ (c == '.') = false ∧ (c == 'e') = false ∧ (c == 'E') = false := by
  rcases h with rfl | rfl | rfl <;> exact ⟨rfl, rfl, rfl, rfl⟩

/-- A `numSafe` remainder contributes nothing to a digit scan. -/
theorem numSafe_scan (rest : List Char) (h : numSafe rest = true) :
    rest.takeWhile isDigitCh = [] ∧ rest.dropWhile isDigitCh = rest := by
  cases rest with
  | nil => exact ⟨rfl, rfl⟩
  | cons c t =>
      rw [numSafe] at h
      have hc : isDigitCh c = false := by
        cases hd : isDigitCh c
        · rfl
        · rw [hd] at h
          simp at h
      rw [List.takeWhile_cons, List.dropWhile_cons, hc]
      exact ⟨rfl, rfl⟩

/-- A digit scan over `digits ++ safe remainder` splits exactly there. -/
theorem digits_scan (ds rest : List Char) (hds : ∀ c ∈ ds, isDigitCh c = true)
    (hrest : numSafe rest = true) :
    (ds ++ rest).takeWhile isDigitCh = ds ∧ (ds ++ rest).dropWhile isDigitCh = rest := by
  induction ds with
  | nil =>
      rw [List.nil_append]
      exact numSafe_scan rest hrest
  | cons c t ih =>
      have hc : isDigitCh c = true := hds c (List.mem_cons_self c t)
      obtain ⟨h1, h2⟩ := ih fun x hx => hds x (List.mem_cons_of_mem c hx)
      rw [List.cons_append, List.takeWhile_cons, List.dropWhile_cons, hc]
      rw [h1, h2]
      exact ⟨rfl, rfl⟩

/-! Decimal digit runs from `natCharsAux`. -/

theorem natCharsAux_digits : ∀ (fuel n : Nat), ∀ c ∈ natCharsAux fuel n, isDigitCh c = true := by
  intro fuel
  induction fuel with
  | zero =>
      intro n c hc
      rw [natCharsAux] at hc
      rcases List.mem_singleton.mp hc with rfl
      exact isDigitCh_digitChar (n % 10) (by omega)
  | succ f ih =>
      intro n c hc
      rw [natCharsAux] at hc
      by_cases hn : n < 10
      · rw [if_pos hn] at hc
        rcases List.mem_singleton.mp hc with rfl
        exact isDigitCh_digitChar n (by omega)
      · rw [if_neg hn] at hc
        rcases List.mem_append.mp hc with hc2 | hc2
        · exact ih (n / 10) c hc2
        · rcases List.mem_singleton.mp hc2 with rfl
          exact isDigitCh_digitChar (n % 10) (by omega)

theorem digitsVal_snoc (l : List Char) (c : Char) :
    digitsVal (l ++ [c]) = digitsVal l * 10 + dval c := by
  rw [digitsVal, digitsVal, List.foldl_append]
  rfl

theorem natCharsAux_val : ∀ (fuel n : Nat), n ≤ fuel → digitsVal (natCharsAux fuel n) = n := by
  intro fuel
  induction fuel with
  | zero =>
      intro n h
      have : n = 0 := by omega
      subst this
      rfl
  | succ f ih =>
      intro n h
      rw [natCharsAux]
      by_cases hn : n < 10
      · rw [if_pos hn]
        show 0 * 10 + dval (digitChar n) = n
        rw [dval_digitChar n (by omega)]
        omega
      · rw [if_neg hn, digitsVal_snoc, ih (n / 10) (by omega),
            dval_digitChar (n % 10) (by omega)]
        omega

theorem natCharsAux_head : ∀ (fuel n : Nat), n ≤ fuel →
    ∃ c t, natCharsAux fuel n = c :: t ∧ isDigitCh c = true ∧ (n ≠ 0 → c ≠ '0') := by
  intro fuel
  induction fuel with
  | zero =>
      intro n h
      have : n = 0 := by omega
      subst this
      exact ⟨digitChar 0, [], rfl, rfl, fun h0 => absurd rfl h0⟩
  | succ f ih =>
      intro n h
      rw [natCharsAux]
      by_cases hn : n < 10
      · rw [if_pos hn]
        refine ⟨digitChar n, [], rfl, isDigitCh_digitChar n (by omega), fun h0 => ?_⟩
        interval_cases n
        · exact absurd rfl h0
        all_goals decide
      · rw [if_neg hn]
        obtain ⟨c, t, hct, hcd, hc0⟩ := ih (n / 10) (by omega)
        exact ⟨c, t ++ [digitChar (n % 10)], by rw [hct]; rfl, hcd,
               fun _ => hc0 (by omega)⟩

theorem natCharsAux_len : ∀ (fuel k n : Nat), n ≤ fuel → n < 10 ^ k → 1 ≤ k →
    (natCharsAux fuel n).length ≤ k := by
  intro fuel
  induction fuel with
  | zero =>
      intro k n h hk h1
      have : n = 0 := by omega
      subst this
      rw [natCharsAux]
      simpa using h1
  | succ f ih =>
      intro k n h hk h1
      rw [natCharsAux]
      by_cases hn : n < 10
      · rw [if_pos hn]
        simpa using h1
      · rw [if_neg hn]
        rcases Nat.lt_or_ge k 2 with hk2 | hk2
        · interval_cases k
          omega
        · have hdiv : n / 10 < 10 ^ (k - 1) := by
            have hexp : 10 ^ k = 10 * 10 ^ (k - 1) := by
              rw [← pow_succ']
              congr 1
              omega
            rw [hexp] at hk
            omega
          have := ih (k - 1) (n / 10) (by omega) hdiv (by omega)
          rw [List.length_append, List.length_singleton]
          omega

/-- A zero accumulator survives a run of zero characters. -/
theorem digitsVal_zeros (m : Nat) (l : List Char) :
    digitsVal (List.replicate m '0' ++ l) = digitsVal l := by
  induction m with
  | zero => rfl
  | succ k ih =>
      rw [List.replicate_succ, List.cons_append]
      show digitsVal (List.replicate k '0' ++ l) = digitsVal l
      exact ih

/-- The leading-zero test of `parseNumber` never fires on `natCharsAux`
output. -/
theorem natCharsAux_no_leading_zero (fuel n : Nat) (h : n ≤ fuel) :
    (decide (1 < (natCharsAux fuel n).length) && ((natCharsAux fuel n).head? == some '0')) =
      false := by
  obtain ⟨c, t, hct, -, hc0⟩ := natCharsAux_head fuel n h
  by_cases hz : n = 0
  · subst hz
    cases fuel with
    | zero => rfl
    | succ f => rfl
  · rw [hct]
    have : (c == '0') = false := by
      cases hb : c == '0'
      · rfl
      · exact absurd (eq_of_beq hb) (hc0 hz)
    rw [List.head?_cons]
    show (decide (1 < t.length + 1) && (c == '0')) = false
    rw [this, Bool.and_false]

/-- What `numSafe` says about the head, in the forms the parser tests. -/
theorem numSafe_beqs (rest : List Char) (h : numSafe rest = true) :
    (rest.head? == some '.') = false ∧ (rest.head? == some 'e') = false ∧
    (rest.head? == some 'E') = false := by
  cases rest with
  | nil => exact ⟨rfl, rfl, rfl⟩
  | cons c t =>
      rw [numSafe] at h
      simp only [Bool.not_eq_eq_eq_not, Bool.not_true, Bool.or_eq_false_iff] at h
      obtain ⟨⟨⟨hd, hdot⟩, he⟩, hE⟩ := h
      rw [List.head?_cons]
      exact ⟨hdot, he, hE⟩

/-- Generalized digit-scan split: the remainder merely has to not begin
with a digit. -/
theorem digits_scan2 (ds rest : List Char) (hds : ∀ c ∈ ds, isDigitCh c = true)
    (hrest : ∀ c, rest.head? = some c → isDigitCh c = false) :
    (ds ++ rest).takeWhile isDigitCh = ds ∧ (ds ++ rest).dropWhile isDigitCh = rest := by
  induction ds with
  | nil =>
      rw [List.nil_append]
      cases rest with
      | nil => exact ⟨rfl, rfl⟩
      | cons c t =>
          rw [List.takeWhile_cons, List.dropWhile_cons, hrest c rfl]
          exact ⟨rfl, rfl⟩
  | cons c t ih =>
      have hc : isDigitCh c = true := hds c (List.mem_cons_self c t)
      obtain ⟨h1, h2⟩ := ih fun x hx => hds x (List.mem_cons_of_mem c hx)
      rw [List.cons_append, List.takeWhile_cons, List.dropWhile_cons, hc, h1, h2]
      exact ⟨rfl, rfl⟩

theorem numSafe_head_not_digit (rest : List Char) (h : numSafe rest = true) :
    ∀ c, rest.head? = some c → isDigitCh c = false := by
  intro c hc
  cases rest with
  | nil => cases hc
  | cons c0 t =>
      rw [List.head?_cons] at hc
      injection hc with hc
      subst hc
      rw [numSafe] at h
      simp only [Bool.not_eq_eq_eq_not, Bool.not_true, Bool.or_eq_false_iff] at h
      exact h.1.1.1

/-! Fraction-padding facts. -/

theorem fracPad_digits (k : Nat) (l : List Char) (hl : ∀ c ∈ l, isDigitCh c = true) :
    ∀ c ∈ fracPad k l, isDigitCh c = true := by
  intro c hc
  rcases List.mem_append.mp hc with hc2 | hc2
  · rw [List.eq_of_mem_replicate hc2]
    rfl
  · exact hl c hc2

theorem fracPad_length (k : Nat) (l : List Char) (h : l.length ≤ k) :
    (fracPad k l).length = k := by
  rw [fracPad, List.length_append, List.length_replicate]
  omega

theorem fracPad_val (k : Nat) (l : List Char) : digitsVal (fracPad k l) = digitsVal l :=
  digitsVal_zeros (k - l.length) l

/-! Inversion of `parseNumber` on rendered numbers. -/

theorem applyExp_zero (m : Int) (k : Nat) : applyExp m k 0 = mkRat m (10 ^ k) := by
  rw [applyExp, if_pos (le_refl (0 : Int))]
  norm_num

/-- The integer-magnitude case. -/
theorem parseNumMag_int (neg : Bool) (m : Nat) (rest : List Char)
    (hrest : numSafe rest = true) :
    parseNumMag neg (natChars m ++ rest) =
      some (applyExp (if neg then -(m : Int) else (m : Int)) 0 0, rest) := by
  obtain ⟨hdot, he, hE⟩ := numSafe_beqs rest hrest
  obtain ⟨hsc1, hsc2⟩ := digits_scan2 (natChars m) rest (natCharsAux_digits m m)
    (numSafe_head_not_digit rest hrest)
  obtain ⟨c, t, hct, -, -⟩ := natCharsAux_head m m le_rfl
  have hemp : (natChars m).isEmpty = false := by
    show (natCharsAux m m).isEmpty = false
    rw [hct]
    rfl
  have hlz : (decide (1 < (natChars m).length) && ((natChars m).head? == some '0')) = false :=
    natCharsAux_no_leading_zero m m le_rfl
  have hval : digitsVal (natChars m) = m := natCharsAux_val m m le_rfl
  rw [parseNumMag]
  simp only [hsc1, hsc2, hemp, hlz, hdot, he, hE, hval, Bool.false_eq_true, if_false,
             Bool.or_self]

/-- The fractional-magnitude case. -/
theorem parseNumMag_frac (neg : Bool) (ip k fr : Nat) (hfr : fr < 10 ^ (k + 1))
    (rest : List Char) (hrest : numSafe rest = true) :
    parseNumMag neg (natChars ip ++ ('.' :: (fracPad (k + 1) (natChars fr) ++ rest))) =
      some (applyExp (if neg then -((ip * 10 ^ (k + 1) + fr : Nat) : Int)
                     else ((ip * 10 ^ (k + 1) + fr : Nat) : Int)) (k + 1) 0, rest) := by
  obtain ⟨hdot, he, hE⟩ := numSafe_beqs rest hrest
  have hlen : (natChars fr).length ≤ k + 1 := natCharsAux_len fr (k + 1) fr le_rfl hfr (by omega)
  obtain ⟨hsc1, hsc2⟩ := digits_scan2 (natChars ip)
    ('.' :: (fracPad (k + 1) (natChars fr) ++ rest)) (natCharsAux_digits ip ip)
    (by intro c hc; injection hc with hc; rw [← hc]; rfl)
  obtain ⟨hfs1, hfs2⟩ := digits_scan2 (fracPad (k + 1) (natChars fr)) rest
    (fracPad_digits (k + 1) (natChars fr) (natCharsAux_digits fr fr))
    (numSafe_head_not_digit rest hrest)
  obtain ⟨c, t, hct, -, -⟩ := natCharsAux_head ip ip le_rfl
  have hplen : (fracPad (k + 1) (natChars fr)).length = k + 1 :=
    fracPad_length (k + 1) (natChars fr) hlen
  have hpne : (fracPad (k + 1) (natChars fr)).isEmpty = false := by
    cases hfe : (fracPad (k + 1) (natChars fr)).isEmpty
    · rfl
    · rw [List.isEmpty_iff] at hfe
      rw [hfe] at hplen
      cases hplen
  have hemp : (natChars ip).isEmpty = false := by
    show (natCharsAux ip ip).isEmpty = false
    rw [hct]
    rfl
  have hlz : (decide (1 < (natChars ip).length) && ((natChars ip).head? == some '0')) = false :=
    natCharsAux_no_leading_zero ip ip le_rfl
  have hvi : digitsVal (natChars ip) = ip := natCharsAux_val ip ip le_rfl
  have hvf : digitsVal (fracPad (k + 1) (natChars fr)) = fr := by
    rw [fracPad_val]
    exact natCharsAux_val fr fr le_rfl
  rw [parseNumMag]
  simp only [hsc1, hsc2, hemp, hlz, hdot, he, hE, hfs1, hfs2, hpne, hplen, hvi, hvf,
             List.head?_cons, List.tail_cons, Bool.false_eq_true, if_false, Bool.or_self,
             beq_self_eq_true, if_true]

/-- Cancel a common factor inside `mkRat`. -/
theorem mkRat_cancel (a : Int) (b t : Nat) (_hb : b ≠ 0) (ht : t ≠ 0) :
    mkRat (a * (t : Int)) (b * t) = mkRat a b := by
  rw [Rat.mkRat_eq_div, Rat.mkRat_eq_div]
  push_cast
  rw [mul_div_mul_right]
  exact_mod_cast ht

/-- The signed mantissa the parser assembles is the numerator times the
scaling factor. -/
theorem sign_mantissa (q : Rat) (t : Nat) :
    (if q.num < 0 then -((q.num.natAbs * t : Nat) : Int) else ((q.num.natAbs * t : Nat) : Int)) =
      q.num * (t : Int) := by
  rcases lt_or_ge q.num 0 with h | h
  · rw [if_pos h]
    have habs : (q.num.natAbs : Int) = -q.num := by omega
    rw [Nat.cast_mul, habs]
    ring
  · rw [if_neg (not_lt.mpr h)]
    have habs : (q.num.natAbs : Int) = q.num := by omega
    rw [Nat.cast_mul, habs]

/-- Inversion of a rendered number: parsing recovers exactly the rational,
whenever the remainder cannot extend the number. -/
theorem parseNumber_ratChars (q : Rat) (hq : hasFiniteDecimal q = true) (rest : List Char)
    (hrest : numSafe rest = true) :
    parseNumber (ratChars q ++ rest) = some (q, rest) := by
  rw [hasFiniteDecimal] at hq
  obtain ⟨k0, hfind⟩ := Option.isSome_iff_exists.mp hq
  have hdvd : q.den ∣ 10 ^ k0 := by
    have hp := List.find?_some hfind
    exact of_decide_eq_true hp
  have hden : q.den ≠ 0 := q.den_nz
  rcases k0 with _ | k
  · have hden1 : q.den = 1 := Nat.dvd_one.mp (by simpa using hdvd)
    have hr : ratChars q = intChars q.num := by
      rw [ratChars, hfind]
    rw [hr, intChars]
    rcases lt_or_ge q.num 0 with hneg | hpos
    · rw [if_pos hneg]
      rw [show (['-'] ++ natChars q.num.natAbs) ++ rest =
          '-' :: (natChars q.num.natAbs ++ rest) from rfl]
      rw [show parseNumber ('-' :: (natChars q.num.natAbs ++ rest)) =
          parseNumMag true (natChars q.num.natAbs ++ rest) from rfl]
      rw [parseNumMag_int true q.num.natAbs rest hrest, applyExp_zero]
      have hms : -((q.num.natAbs : Nat) : Int) = q.num := by omega
      rw [if_pos rfl]
      rw [hms, pow_zero, show mkRat q.num 1 = mkRat q.num q.den from by rw [hden1],
          Rat.mkRat_self]
    · rw [if_neg (not_lt.mpr hpos), List.nil_append]
      obtain ⟨c, t, hct, hcd, -⟩ := natCharsAux_head q.num.natAbs q.num.natAbs le_rfl
      have hnum : parseNumber (natChars q.num.natAbs ++ rest) =
          parseNumMag false (natChars q.num.natAbs ++ rest) := by
        rw [parseNumber]
        show (if ((natCharsAux q.num.natAbs q.num.natAbs ++ rest).head? == some '-') = true
             then parseNumMag true (natChars q.num.natAbs ++ rest).tail
             else parseNumMag false (natChars q.num.natAbs ++ rest)) = _
        rw [hct]
        rw [show ((c :: t ++ rest).head? == some '-') = (c == '-') from rfl]
        rw [show (c == '-') = false from by
          cases hb : c == '-'
          · rfl
          · rw [eq_of_beq hb] at hcd
            exact absurd hcd (by decide)]
        rfl
      rw [hnum, parseNumMag_int false q.num.natAbs rest hrest, applyExp_zero]
      have hms : ((q.num.natAbs : Nat) : Int) = q.num := by omega
      rw [if_neg (by simp)]
      rw [hms, pow_zero, show mkRat q.num 1 = mkRat q.num q.den from by rw [hden1],
          Rat.mkRat_self]
  · have ht0mul : 10 ^ (k + 1) / q.den * q.den = 10 ^ (k + 1) := Nat.div_mul_cancel hdvd
    have ht0 : 10 ^ (k + 1) / q.den ≠ 0 := by
      intro h0
      rw [h0, Nat.zero_mul] at ht0mul
      exact absurd ht0mul.symm (pow_ne_zero (k + 1) (by norm_num))
    have hr : ratChars q =
        (if q.num < 0 then ['-'] else []) ++
          (natChars (q.num.natAbs * (10 ^ (k + 1) / q.den) / 10 ^ (k + 1)) ++
            ('.' :: fracPad (k + 1)
              (natChars (q.num.natAbs * (10 ^ (k + 1) / q.den) % 10 ^ (k + 1))))) := by
      rw [ratChars, hfind]
    have hfr : q.num.natAbs * (10 ^ (k + 1) / q.den) % 10 ^ (k + 1) < 10 ^ (k + 1) :=
      Nat.mod_lt _ (by positivity)
    have hsplit : q.num.natAbs * (10 ^ (k + 1) / q.den) / 10 ^ (k + 1) * 10 ^ (k + 1) +
        q.num.natAbs * (10 ^ (k + 1) / q.den) % 10 ^ (k + 1) =
        q.num.natAbs * (10 ^ (k + 1) / q.den) := by
      rw [Nat.mul_comm]
      exact Nat.div_add_mod _ _
    have hfinal : mkRat (if q.num < 0
          then -((q.num.natAbs * (10 ^ (k + 1) / q.den) : Nat) : Int)
          else ((q.num.natAbs * (10 ^ (k + 1) / q.den) : Nat) : Int)) (10 ^ (k + 1)) = q := by
      rw [sign_mantissa q (10 ^ (k + 1) / q.den)]
      nth_rewrite 2 [show (10 : Nat) ^ (k + 1) = q.den * (10 ^ (k + 1) / q.den) from by
        rw [Nat.mul_comm]
        exact ht0mul.symm]
      rw [mkRat_cancel q.num q.den (10 ^ (k + 1) / q.den) hden ht0, Rat.mkRat_self]
    rcases lt_or_ge q.num 0 with hneg | hpos
    · rw [hr, if_pos hneg]
      rw [show (['-'] ++ (natChars (q.num.natAbs * (10 ^ (k + 1) / q.den) / 10 ^ (k + 1)) ++
          ('.' :: fracPad (k + 1)
            (natChars (q.num.natAbs * (10 ^ (k + 1) / q.den) % 10 ^ (k + 1)))))) ++ rest =
          '-' :: (natChars (q.num.natAbs * (10 ^ (k + 1) / q.den) / 10 ^ (k + 1)) ++
            ('.' :: (fracPad (k + 1)
              (natChars (q.num.natAbs * (10 ^ (k + 1) / q.den) % 10 ^ (k + 1))) ++ rest))) from by
        simp [List.append_assoc]]
      rw [show ∀ r : List Char, parseNumber ('-' :: r) = parseNumMag true r from fun r => rfl]
      rw [parseNumMag_frac true _ k _ hfr rest hrest, applyExp_zero]
      rw [hsplit]
      rw [show (if true = true then -((q.num.natAbs * (10 ^ (k + 1) / q.den) : Nat) : Int)
          else ((q.num.natAbs * (10 ^ (k + 1) / q.den) : Nat) : Int)) =
          -((q.num.natAbs * (10 ^ (k + 1) / q.den) : Nat) : Int) from rfl]
      rw [show -((q.num.natAbs * (10 ^ (k + 1) / q.den) : Nat) : Int) =
          (if q.num < 0 then -((q.num.natAbs * (10 ^ (k + 1) / q.den) : Nat) : Int)
           else ((q.num.natAbs * (10 ^ (k + 1) / q.den) : Nat) : Int)) from by rw [if_pos hneg]]
      rw [hfinal]
    · rw [hr, if_neg (not_lt.mpr hpos), List.nil_append]
      obtain ⟨c, t, hct, hcd, -⟩ :=
        natCharsAux_head (q.num.natAbs * (10 ^ (k + 1) / q.den) / 10 ^ (k + 1))
          (q.num.natAbs * (10 ^ (k + 1) / q.den) / 10 ^ (k + 1)) le_rfl
      rw [List.append_assoc, List.cons_append]
      have hnum : parseNumber (natChars (q.num.natAbs * (10 ^ (k + 1) / q.den) / 10 ^ (k + 1)) ++
          ('.' :: (fracPad (k + 1)
            (natChars (q.num.natAbs * (10 ^ (k + 1) / q.den) % 10 ^ (k + 1))) ++ rest))) =
          parseNumMag false (natChars (q.num.natAbs * (10 ^ (k + 1) / q.den) / 10 ^ (k + 1)) ++
            ('.' :: (fracPad (k + 1)
              (natChars (q.num.natAbs * (10 ^ (k + 1) / q.den) % 10 ^ (k + 1))) ++ rest))) := by
        rw [parseNumber, natChars, hct]
        rw [show ((c :: t ++ ('.' :: (fracPad (k + 1)
            (natChars (q.num.natAbs * (10 ^ (k + 1) / q.den) % 10 ^ (k + 1))) ++ rest))).head? ==
            some '-') = (c == '-') from rfl]
        rw [show (c == '-') = false from by
          cases hb : c == '-'
          · rfl
          · rw [eq_of_beq hb] at hcd
            exact absurd hcd (by decide)]
        rfl
      rw [hnum, parseNumMag_frac false _ k _ hfr rest hrest, applyExp_zero]
      rw [hsplit]
      rw [show (if false = true then -((q.num.natAbs * (10 ^ (k + 1) / q.den) : Nat) : Int)
          else ((q.num.natAbs * (10 ^ (k + 1) / q.den) : Nat) : Int)) =
          ((q.num.natAbs * (10 ^ (k + 1) / q.den) : Nat) : Int) from rfl]
      rw [show ((q.num.natAbs * (10 ^ (k + 1) / q.den) : Nat) : Int) =
          (if q.num < 0 then -((q.num.natAbs * (10 ^ (k + 1) / q.den) : Nat) : Int)
           else ((q.num.natAbs * (10 ^ (k + 1) / q.den) : Nat) : Int)) from by
        rw [if_neg (not_lt.mpr hpos)]]
      rw [hfinal]

/-! Inversion of the string escaping. -/

theorem hexVal_hexDigitChar (d : Nat) (h : d < 16) : hexVal (hexDigitChar d) = some d := by
  interval_cases d <;> rfl

/-- Undoing the escape of a single character. -/
theorem parseStringBody_escChar (c : Char) (r : List Char) :
    parseStringBody (escChar c ++ r) = (parseStringBody r).map fun p => (c :: p.1, p.2) := by
  rw [escChar]
  by_cases h1 : c == '"'
  · rw [if_pos h1, eq_of_beq h1]
    rfl
  · rw [if_neg h1]
    by_cases h2 : c == '\\'
    · rw [if_pos h2, eq_of_beq h2]
      rfl
    · rw [if_neg h2]
      by_cases h3 : c == '\n'
      · rw [if_pos h3, eq_of_beq h3]
        rfl
      · rw [if_neg h3]
        by_cases h4 : c == '\r'
        · rw [if_pos h4, eq_of_beq h4]
          rfl
        · rw [if_neg h4]
          by_cases h5 : c == '\t'
          · rw [if_pos h5, eq_of_beq h5]
            rfl
          · rw [if_neg h5]
            by_cases h6 : c == '\x08'
            · rw [if_pos h6, eq_of_beq h6]
              rfl
            · rw [if_neg h6]
              by_cases h7 : c == '\x0c'
              · rw [if_pos h7, eq_of_beq h7]
                rfl
              · rw [if_neg h7]
                by_cases h8 : c.toNat < 32
                · rw [if_pos h8]
                  have hv1 : hexVal (hexDigitChar (c.toNat / 16)) = some (c.toNat / 16) :=
                    hexVal_hexDigitChar (c.toNat / 16) (by omega)
                  have hv2 : hexVal (hexDigitChar (c.toNat % 16)) = some (c.toNat % 16) :=
                    hexVal_hexDigitChar (c.toNat % 16) (by omega)
                  rw [List.cons_append, List.cons_append, List.cons_append, List.cons_append,
                      List.cons_append, List.cons_append, List.nil_append]
                  rw [parseStringBody]
                  rw [show hexVal '0' = some 0 from rfl, hv1, hv2]
                  have hn : ((0 * 16 + 0) * 16 + c.toNat / 16) * 16 + c.toNat % 16 = c.toNat := by
                    omega
                  simp only [Option.bind_eq_bind, Option.some_bind, hn]
                  rw [if_pos (show Nat.isValidChar c.toNat from Or.inl (by omega))]
                  rw [Char.ofNat_toNat]
                · rw [if_neg h8, List.cons_append, List.nil_append]
                  have hne1 : c ≠ '"' := fun he => h1 (beq_of_eq he)
                  have hne2 : c ≠ '\\' := fun he => h2 (beq_of_eq he)
                  rw [parseStringBody.eq_def]
                  split
                  · rename_i heq
                    exact absurd heq (List.cons_ne_nil c r)
                  · rename_i heq
                    exact absurd (List.cons_eq_cons.mp heq).1 hne1
                  · rename_i heq
                    exact absurd (List.cons_eq_cons.mp heq).1 hne2
                  · rename_i heq
                    exact absurd (List.cons_eq_cons.mp heq).1 hne2
                  · rename_i heq
                    obtain ⟨rfl, rfl⟩ := List.cons_eq_cons.mp heq
                    rw [if_neg h8]

/-- Undoing the escape of a whole character list. -/
theorem parseStringBody_escList : ∀ (cs : List Char) (r : List Char),
    parseStringBody ((cs.map escChar).flatten ++ '"' :: r) = some (cs, r) := by
  intro cs
  induction cs with
  | nil => intro r; rfl
  | cons c t ih =>
      intro r
      rw [List.map_cons, List.flatten_cons, List.append_assoc, parseStringBody_escChar, ih]
      rfl

/-- Undoing the escape of a string body. -/
theorem parseStringBody_escString (s : String) (r : List Char) :
    parseStringBody (escString s ++ '"' :: r) = some (s.toList, r) := by
  rw [escString, parseStringBody_escList]

/-! Leading characters of serialized values: every serialization starts
with a non-whitespace character that also cannot be mistaken for a
closing bracket. -/

theorem singleSpace_ws : IsWsList [' '] := by
  intro c hc
  rcases List.mem_singleton.mp hc with rfl
  rfl

theorem toNat_ne_beq (c d : Char) (h : c.toNat ≠ d.toNat) : (c == d) = false := by
  cases hb : c == d
  · rfl
  · exact absurd (congrArg Char.toNat (eq_of_beq hb)) h

/-- `str(i)` starts with a minus sign or a digit. -/
theorem intChars_head (n : Int) :
    ∃ c t, intChars n = c :: t ∧ (c = '-' ∨ isDigitCh c = true) := by
  rw [intChars]
  by_cases h : n < 0
  · rw [if_pos h]
    exact ⟨'-', _, rfl, Or.inl rfl⟩
  · rw [if_neg h, List.nil_append]
    obtain ⟨c, t, he, hd, -⟩ := natCharsAux_head n.natAbs n.natAbs le_rfl
    exact ⟨c, t, he, Or.inr hd⟩

/-- A serialized number starts with a minus sign or a digit. -/
theorem ratChars_head (q : Rat) :
    ∃ c t, ratChars q = c :: t ∧ (c = '-' ∨ isDigitCh c = true) := by
  have key : ∀ (s : List Char), (s = ['-'] ∨ s = []) → ∀ (A : Nat) (B : List Char),
      ∃ c t, s ++ (natChars A ++ B) = c :: t ∧ (c = '-' ∨ isDigitCh c = true) := by
    rintro s (rfl | rfl) A B
    · exact ⟨'-', _, rfl, Or.inl rfl⟩
    · obtain ⟨c, t, he, hd, -⟩ := natCharsAux_head A A le_rfl
      refine ⟨c, t ++ B, ?_, Or.inr hd⟩
      rw [List.nil_append]
      show natCharsAux A A ++ B = c :: (t ++ B)
      rw [he]
      rfl
  rcases hfind : (List.range (q.den + 1)).find? fun k => q.den ∣ 10 ^ k with - | k0
  · have hr : ratChars q = intChars q.num := by rw [ratChars, hfind]
    rw [hr]
    exact intChars_head q.num
  · rcases k0 with - | k
    · have hr : ratChars q = intChars q.num := by rw [ratChars, hfind]
      rw [hr]
      exact intChars_head q.num
    · have hr : ratChars q =
          (if q.num < 0 then ['-'] else []) ++
            (natChars (q.num.natAbs * (10 ^ (k + 1) / q.den) / 10 ^ (k + 1)) ++
              ('.' :: fracPad (k + 1)
                (natChars (q.num.natAbs * (10 ^ (k + 1) / q.den) % 10 ^ (k + 1))))) := by
        rw [ratChars, hfind]
      rw [hr]
      refine key _ ?_ _ _
      by_cases h : q.num < 0
      · rw [if_pos h]
        exact Or.inl rfl
      · rw [if_neg h]
        exact Or.inr rfl

/-- A minus sign or digit is not whitespace, not a closing token, and not
the first character of any other kind of JSON value. -/
theorem numHead_flags (c : Char) (h : c = '-' ∨ isDigitCh c = true) :
    isJsonWs c = false ∧ (c == ']') = false ∧
    c ≠ 'n' ∧ c ≠ 't' ∧ c ≠ 'f' ∧ c ≠ '"' ∧ c ≠ '[' ∧ c ≠ '\x7b' := by
  rcases h with rfl | hd
  · exact ⟨rfl, rfl, by decide, by decide, by decide, by decide, by decide, by decide⟩
  · rw [isDigitCh, Bool.and_eq_true, decide_eq_true_eq, decide_eq_true_eq] at hd
    have hne : ∀ d : Char, c.toNat ≠ d.toNat → c ≠ d :=
      fun d hn he => hn (congrArg Char.toNat he)
    have e1 : (' ').toNat = 32 := rfl
    have e2 : ('\t').toNat = 9 := rfl
    have e3 : ('\n').toNat = 10 := rfl
    have e4 : ('\r').toNat = 13 := rfl
    have e5 : (']').toNat = 93 := rfl
    have e6 : ('n').toNat = 110 := rfl
    have e7 : ('t').toNat = 116 := rfl
    have e8 : ('f').toNat = 102 := rfl
    have e9 : ('"').toNat = 34 := rfl
    have e10 : ('[').toNat = 91 := rfl
    have e11 : ('\x7b').toNat = 123 := rfl
    refine ⟨?_, toNat_ne_beq c ']' (by omega), hne 'n' (by omega), hne 't' (by omega),
            hne 'f' (by omega), hne '"' (by omega), hne '[' (by omega), hne '\x7b' (by omega)⟩
    rw [isJsonWs, toNat_ne_beq c ' ' (by omega), toNat_ne_beq c '\t' (by omega),
        toNat_ne_beq c '\n' (by omega), toNat_ne_beq c '\r' (by omega)]
    rfl

/-- The first character of any serialization: never whitespace, never a
closing bracket. -/
theorem dumpsChars_head (v : JVal) (i : Option Nat) (lvl : Nat) :
    ∃ c t, dumpsChars v i lvl = c :: t ∧ isJsonWs c = false ∧ (c == ']') = false := by
  cases v with
  | jnull => exact ⟨'n', _, rfl, rfl, rfl⟩
  | jbool b =>
      cases b with
      | false => exact ⟨'f', _, rfl, rfl, rfl⟩
      | true => exact ⟨'t', _, rfl, rfl, rfl⟩
  | jnum q =>
      obtain ⟨c, t, hct, hc⟩ := ratChars_head q
      obtain ⟨hws, hbr, -⟩ := numHead_flags c hc
      exact ⟨c, t, hct, hws, hbr⟩
  | jstr s => exact ⟨'"', _, rfl, rfl, rfl⟩
  | jarr xs =>
      cases xs with
      | nil => exact ⟨'[', _, rfl, rfl, rfl⟩
      | cons x t => exact ⟨'[', _, rfl, rfl, rfl⟩
  | jobj kvs =>
      cases kvs with
      | nil => exact ⟨'\x7b', _, rfl, rfl, rfl⟩
      | cons kv t => exact ⟨'\x7b', _, rfl, rfl, rfl⟩

/-- A serialized item list starts like its first item. -/
theorem dumpsItems_head (x : JVal) (xs : List JVal) (i : Option Nat) (lvl : Nat) :
    ∃ c t, dumpsItems (x :: xs) i lvl = c :: t ∧ isJsonWs c = false ∧ (c == ']') = false := by
  obtain ⟨c, t, hct, hws, hbr⟩ := dumpsChars_head x i lvl
  cases xs with
  | nil => exact ⟨c, t, hct, hws, hbr⟩
  | cons y ys =>
      refine ⟨c, t ++ (',' :: (sepSp i lvl ++ dumpsItems (y :: ys) i lvl)), ?_, hws, hbr⟩
      show dumpsChars x i lvl ++ (',' :: (sepSp i lvl ++ dumpsItems (y :: ys) i lvl)) = _
      rw [hct]
      rfl

/-- A serialized member list starts with the quote of its first key. -/
theorem dumpsMembers_head (kv : String × JVal) (kvs : List (String × JVal)) (i : Option Nat)
    (lvl : Nat) : ∃ t, dumpsMembers (kv :: kvs) i lvl = '"' :: t := by
  cases kvs with
  | nil =>
      refine ⟨(escString kv.1 ++ ['"']) ++ (':' :: ' ' :: dumpsChars kv.2 i lvl), ?_⟩
      show strJ kv.1 ++ (':' :: ' ' :: dumpsChars kv.2 i lvl) = _
      rw [strJ]
      rfl
  | cons kv2 kvs2 =>
      refine ⟨((escString kv.1 ++ ['"']) ++ (':' :: ' ' :: dumpsChars kv.2 i lvl)) ++
        (',' :: (sepSp i lvl ++ dumpsMembers (kv2 :: kvs2) i lvl)), ?_⟩
      show (strJ kv.1 ++ (':' :: ' ' :: dumpsChars kv.2 i lvl)) ++
        (',' :: (sepSp i lvl ++ dumpsMembers (kv2 :: kvs2) i lvl)) = _
      rw [strJ]
      rfl

/-! Fuel accounting: the text is always long enough to pay for the fuel
`parseJson` allots. -/

theorem jvalFuel_pos (v : JVal) : 1 ≤ jvalFuel v := by
  cases v <;> simp only [jvalFuel] <;> omega

theorem sepSp_len_pos (i : Option Nat) (lvl : Nat) : 1 ≤ (sepSp i lvl).length := by
  cases i <;>
    simp only [sepSp, List.length_cons, List.length_singleton, List.length_replicate] <;> omega

/-- The serialization is at least as long as the fuel the value needs (for
item and member lists, one less than that). -/
theorem dumps_len_bound : ∀ n : Nat,
    (∀ (v : JVal) (i : Option Nat) (lvl : Nat), jvalFuel v ≤ n →
       jvalFuel v ≤ (dumpsChars v i lvl).length) ∧
    (∀ (xs : List JVal) (i : Option Nat) (lvl : Nat), itemsFuel xs ≤ n →
       itemsFuel xs ≤ (dumpsItems xs i lvl).length + 1) ∧
    (∀ (kvs : List (String × JVal)) (i : Option Nat) (lvl : Nat), membersFuel kvs ≤ n →
       membersFuel kvs ≤ (dumpsMembers kvs i lvl).length + 1) := by
  intro n
  induction n with
  | zero =>
      refine ⟨fun v i lvl h => absurd h (by have := jvalFuel_pos v; omega),
              fun xs i lvl h => ?_, fun kvs i lvl h => ?_⟩
      · cases xs with
        | nil => simp only [itemsFuel]; omega
        | cons x t => rw [itemsFuel] at h; omega
      · cases kvs with
        | nil => simp only [membersFuel]; omega
        | cons kv t => rw [membersFuel] at h; omega
  | succ n ih =>
      obtain ⟨ihv, ihi, ihm⟩ := ih
      refine ⟨fun v i lvl h => ?_, fun xs i lvl h => ?_, fun kvs i lvl h => ?_⟩
      · cases v with
        | jnull => simp only [jvalFuel, dumpsChars, List.length_cons]; omega
        | jbool b =>
            cases b <;> simp only [jvalFuel, dumpsChars, List.length_cons] <;> omega
        | jnum q =>
            obtain ⟨c, t, hct, -⟩ := ratChars_head q
            rw [show dumpsChars (JVal.jnum q) i lvl = ratChars q from rfl, hct]
            simp only [jvalFuel, List.length_cons]
            omega
        | jstr s =>
            rw [show dumpsChars (JVal.jstr s) i lvl = strJ s from rfl, strJ]
            simp only [jvalFuel, List.length_cons]
            omega
        | jarr xs =>
            cases xs with
            | nil => simp only [jvalFuel, itemsFuel, dumpsChars, List.length_cons]; omega
            | cons x t =>
                simp only [jvalFuel] at h ⊢
                have hb := ihi (x :: t) i (lvl + 1) (by omega)
                rw [show dumpsChars (JVal.jarr (x :: t)) i lvl =
                    '[' :: (padNl i (lvl + 1) ++ (dumpsItems (x :: t) i (lvl + 1) ++
                      (padNl i lvl ++ [']']))) from rfl]
                simp only [List.length_cons, List.length_append, List.length_nil]
                omega
        | jobj kvs =>
            cases kvs with
            | nil => simp only [jvalFuel, membersFuel, dumpsChars, List.length_cons]; omega
            | cons kv t =>
                simp only [jvalFuel] at h ⊢
                have hb := ihm (kv :: t) i (lvl + 1) (by omega)
                rw [show dumpsChars (JVal.jobj (kv :: t)) i lvl =
                    '\x7b' :: (padNl i (lvl + 1) ++ (dumpsMembers (kv :: t) i (lvl + 1) ++
                      (padNl i lvl ++ ['\x7d']))) from rfl]
                simp only [List.length_cons, List.length_append, List.length_nil]
                omega
      · cases xs with
        | nil => simp only [itemsFuel]; omega
        | cons x t =>
            simp only [itemsFuel] at h ⊢
            have hv := ihv x i lvl (by have := jvalFuel_pos x; omega)
            cases t with
            | nil =>
                simp only [itemsFuel]
                rw [show dumpsItems [x] i lvl = dumpsChars x i lvl from rfl]
                omega
            | cons y u =>
                have h2 := ihi (y :: u) i lvl (by simp only [itemsFuel] at h ⊢; omega)
                have hs := sepSp_len_pos i lvl
                rw [show dumpsItems (x :: y :: u) i lvl = dumpsChars x i lvl ++
                    (',' :: (sepSp i lvl ++ dumpsItems (y :: u) i lvl)) from rfl]
                simp only [List.length_append, List.length_cons]
                omega
      · cases kvs with
        | nil => simp only [membersFuel]; omega
        | cons kv t =>
            simp only [membersFuel] at h ⊢
            have hv := ihv kv.2 i lvl (by have := jvalFuel_pos kv.2; omega)
            cases t with
            | nil =>
                simp only [membersFuel]
                rw [show dumpsMembers [kv] i lvl =
                    strJ kv.1 ++ (':' :: ' ' :: dumpsChars kv.2 i lvl) from rfl]
                simp only [List.length_append, List.length_cons]
                omega
            | cons kv2 u =>
                have h2 := ihm (kv2 :: u) i lvl (by simp only [membersFuel] at h ⊢; omega)
                have hs := sepSp_len_pos i lvl
                rw [show dumpsMembers (kv :: kv2 :: u) i lvl =
                    (strJ kv.1 ++ (':' :: ' ' :: dumpsChars kv.2 i lvl)) ++
                      (',' :: (sepSp i lvl ++ dumpsMembers (kv2 :: u) i lvl)) from rfl]
                simp only [List.length_append, List.length_cons]
                omega

/-! The round-trip induction. -/

/-- Consuming one serialized object member: the quoted key, the `": "`
separator and the value, leaving the dispatch on what follows. -/
theorem parseMembers_step (f : Nat) (s : List Char) (k : String) (v : JVal) (i : Option Nat)
    (lvl : Nat) (REST : List Char)
    (hs : skipWs s = '"' :: (escString k ++ ('"' :: (':' :: (' ' ::
      (dumpsChars v i lvl ++ REST))))))
    (hv : parseValue f (' ' :: (dumpsChars v i lvl ++ REST)) = some (v, REST)) :
    parseMembers (f + 1) s =
      (match skipWs REST with
       | ',' :: r4 => (parseMembers f r4).map fun p => ((k, v) :: p.1, p.2)
       | '\x7d' :: r4 => some ([(k, v)], r4)
       | _ => none) := by
  rw [parseMembers, hs]
  show (do
      let (kcs, r1) ← parseStringBody (escString k ++ ('"' :: (':' :: (' ' ::
        (dumpsChars v i lvl ++ REST)))))
      match skipWs r1 with
      | ':' :: r2 => do
          let (v', r3) ← parseValue f r2
          (match skipWs r3 with
           | ',' :: r4 => (parseMembers f r4).map
               fun (p : List (String × JVal) × List Char) => ((String.mk kcs, v') :: p.1, p.2)
           | '\x7d' :: r4 => some ([(String.mk kcs, v')], r4)
           | _ => none)
      | _ => none) = _
  rw [parseStringBody_escString k (':' :: (' ' :: (dumpsChars v i lvl ++ REST)))]
  simp only [Option.bind_eq_bind, Option.some_bind]
  rw [show skipWs (':' :: (' ' :: (dumpsChars v i lvl ++ REST))) =
      ':' :: (' ' :: (dumpsChars v i lvl ++ REST)) from skipWs_not_ws ':' _ rfl]
  show (do
      let (v', r3) ← parseValue f (' ' :: (dumpsChars v i lvl ++ REST))
      (match skipWs r3 with
       | ',' :: r4 => (parseMembers f r4).map
           fun (p : List (String × JVal) × List Char) => ((String.mk k.toList, v') :: p.1, p.2)
       | '\x7d' :: r4 => some ([(String.mk k.toList, v')], r4)
       | _ => none)) = _
  rw [hv]
  simp only [Option.bind_eq_bind, Option.some_bind]
  rfl

/-- The induction behind the round-trip: with enough fuel, the parser
consumes exactly the serialization of a value (item list, member list) and
returns it, whatever whitespace precedes it and whatever safely follows. -/
theorem roundtrip_aux : ∀ fuel : Nat,
    (∀ (v : JVal) (i : Option Nat) (lvl : Nat) (w rest : List Char),
       IsWsList w → wfNums v = true → numSafe rest = true → jvalFuel v ≤ fuel →
       parseValue fuel (w ++ (dumpsChars v i lvl ++ rest)) = some (v, rest)) ∧
    (∀ (xs : List JVal) (i : Option Nat) (lvl : Nat) (w w2 rest : List Char),
       IsWsList w → IsWsList w2 → wfNumsItems xs = true → xs ≠ [] → itemsFuel xs ≤ fuel →
       parseItems fuel (w ++ (dumpsItems xs i lvl ++ (w2 ++ (']' :: rest)))) =
         some (xs, rest)) ∧
    (∀ (kvs : List (String × JVal)) (i : Option Nat) (lvl : Nat) (w w2 rest : List Char),
       IsWsList w → IsWsList w2 → wfNumsMembers kvs = true → kvs ≠ [] →
       membersFuel kvs ≤ fuel →
       parseMembers fuel (w ++ (dumpsMembers kvs i lvl ++ (w2 ++ ('\x7d' :: rest)))) =
         some (kvs, rest)) := by
  intro fuel
  induction fuel with
  | zero =>
      refine ⟨fun v i lvl w rest hw hwf hr hfuel =>
                absurd hfuel (by have := jvalFuel_pos v; omega),
              fun xs i lvl w w2 rest hw hw2 hwf hne hfuel => ?_,
              fun kvs i lvl w w2 rest hw hw2 hwf hne hfuel => ?_⟩
      · cases xs with
        | nil => exact absurd rfl hne
        | cons x t => rw [itemsFuel] at hfuel; omega
      · cases kvs with
        | nil => exact absurd rfl hne
        | cons kv t => rw [membersFuel] at hfuel; omega
  | succ f ih =>
      obtain ⟨ihv, ihi, ihm⟩ := ih
      refine ⟨fun v i lvl w rest hw hwf hr hfuel => ?_,
              fun xs i lvl w w2 rest hw hw2 hwf hne hfuel => ?_,
              fun kvs i lvl w w2 rest hw hw2 hwf hne hfuel => ?_⟩
      · cases v with
        | jnull =>
            have hskip : skipWs (w ++ (dumpsChars JVal.jnull i lvl ++ rest)) =
                'n' :: ('u' :: ('l' :: ('l' :: rest))) := by
              rw [skipWs_append _ _ hw]
              exact skipWs_not_ws 'n' _ rfl
            rw [parseValue, hskip]
            rfl
        | jbool b =>
            cases b with
            | false =>
                have hskip : skipWs (w ++ (dumpsChars (JVal.jbool false) i lvl ++ rest)) =
                    'f' :: ('a' :: ('l' :: ('s' :: ('e' :: rest)))) := by
                  rw [skipWs_append _ _ hw]
                  exact skipWs_not_ws 'f' _ rfl
                rw [parseValue, hskip]
                rfl
            | true =>
                have hskip : skipWs (w ++ (dumpsChars (JVal.jbool true) i lvl ++ rest)) =
                    't' :: ('r' :: ('u' :: ('e' :: rest))) := by
                  rw [skipWs_append _ _ hw]
                  exact skipWs_not_ws 't' _ rfl
                rw [parseValue, hskip]
                rfl
        | jnum q =>
            simp only [wfNums] at hwf
            obtain ⟨c, t, hct, hc⟩ := ratChars_head q
            obtain ⟨hcws, -, hn1, hn2, hn3, hn4, hn5, hn6⟩ := numHead_flags c hc
            have hskip : skipWs (w ++ (dumpsChars (JVal.jnum q) i lvl ++ rest)) =
                c :: (t ++ rest) := by
              rw [skipWs_append _ _ hw,
                  show dumpsChars (JVal.jnum q) i lvl = ratChars q from rfl, hct,
                  List.cons_append]
              exact skipWs_not_ws c _ hcws
            rw [parseValue, hskip]
            split
            · rename_i heq
              exact absurd (List.cons_eq_cons.mp heq).1 hn1
            · rename_i heq
              exact absurd (List.cons_eq_cons.mp heq).1 hn2
            · rename_i heq
              exact absurd (List.cons_eq_cons.mp heq).1 hn3
            · rename_i heq
              exact absurd (List.cons_eq_cons.mp heq).1 hn4
            · rename_i heq
              exact absurd (List.cons_eq_cons.mp heq).1 hn5
            · rename_i heq
              exact absurd (List.cons_eq_cons.mp heq).1 hn6
            · rw [show c :: (t ++ rest) = ratChars q ++ rest from by
                  rw [hct, List.cons_append],
                parseNumber_ratChars q hwf rest hr]
              rfl
        | jstr s =>
            have hskip : skipWs (w ++ (dumpsChars (JVal.jstr s) i lvl ++ rest)) =
                '"' :: ((escString s ++ ['"']) ++ rest) := by
              rw [skipWs_append _ _ hw]
              exact skipWs_not_ws '"' _ rfl
            rw [parseValue, hskip]
            show (parseStringBody ((escString s ++ ['"']) ++ rest)).map
                (fun p => (JVal.jstr (String.mk p.1), p.2)) = some (JVal.jstr s, rest)
            rw [show (escString s ++ ['"']) ++ rest = escString s ++ ('"' :: rest) from by
                  rw [List.append_assoc]
                  rfl,
              parseStringBody_escString s rest]
            rfl
        | jarr xs =>
            cases xs with
            | nil =>
                have hskip : skipWs (w ++ (dumpsChars (JVal.jarr []) i lvl ++ rest)) =
                    '[' :: (']' :: rest) := by
                  rw [skipWs_append _ _ hw]
                  exact skipWs_not_ws '[' _ rfl
                rw [parseValue, hskip]
                rfl
            | cons x xs =>
                simp only [wfNums] at hwf
                simp only [jvalFuel] at hfuel
                have hform : dumpsChars (JVal.jarr (x :: xs)) i lvl ++ rest =
                    '[' :: (padNl i (lvl + 1) ++ (dumpsItems (x :: xs) i (lvl + 1) ++
                      (padNl i lvl ++ (']' :: rest)))) := by
                  show ('[' :: (padNl i (lvl + 1) ++ (dumpsItems (x :: xs) i (lvl + 1) ++
                      (padNl i lvl ++ [']'])))) ++ rest = _
                  simp [List.append_assoc]
                rw [hform]
                have hskip : skipWs (w ++ ('[' :: (padNl i (lvl + 1) ++
                    (dumpsItems (x :: xs) i (lvl + 1) ++ (padNl i lvl ++ (']' :: rest)))))) =
                    '[' :: (padNl i (lvl + 1) ++ (dumpsItems (x :: xs) i (lvl + 1) ++
                      (padNl i lvl ++ (']' :: rest)))) := by
                  rw [skipWs_append _ _ hw]
                  exact skipWs_not_ws '[' _ rfl
                rw [parseValue, hskip]
                show (match skipWs (padNl i (lvl + 1) ++ (dumpsItems (x :: xs) i (lvl + 1) ++
                        (padNl i lvl ++ (']' :: rest)))) with
                      | ']' :: r2 => some (JVal.jarr [], r2)
                      | _ => (parseItems f (padNl i (lvl + 1) ++
                          (dumpsItems (x :: xs) i (lvl + 1) ++
                            (padNl i lvl ++ (']' :: rest))))).map
                          fun p => (JVal.jarr p.1, p.2)) = some (JVal.jarr (x :: xs), rest)
                obtain ⟨c, t, hct, hcws, hcbr⟩ := dumpsItems_head x xs i (lvl + 1)
                have hskip2 : skipWs (padNl i (lvl + 1) ++ (dumpsItems (x :: xs) i (lvl + 1) ++
                    (padNl i lvl ++ (']' :: rest)))) =
                    c :: (t ++ (padNl i lvl ++ (']' :: rest))) := by
                  rw [skipWs_append _ _ (padNl_ws i (lvl + 1)), hct, List.cons_append]
                  exact skipWs_not_ws c _ hcws
                rw [hskip2]
                split
                · rename_i heq
                  rw [(List.cons_eq_cons.mp heq).1] at hcbr
                  exact absurd hcbr (by decide)
                · rw [ihi (x :: xs) i (lvl + 1) (padNl i (lvl + 1)) (padNl i lvl) rest
                      (padNl_ws i (lvl + 1)) (padNl_ws i lvl) hwf (List.cons_ne_nil x xs)
                      (by omega)]
                  rfl
        | jobj kvs =>
            cases kvs with
            | nil =>
                have hskip : skipWs (w ++ (dumpsChars (JVal.jobj []) i lvl ++ rest)) =
                    '\x7b' :: ('\x7d' :: rest) := by
                  rw [skipWs_append _ _ hw]
                  exact skipWs_not_ws '\x7b' _ rfl
                rw [parseValue, hskip]
                rfl
            | cons kv kvs =>
                simp only [wfNums] at hwf
                simp only [jvalFuel] at hfuel
                have hform : dumpsChars (JVal.jobj (kv :: kvs)) i lvl ++ rest =
                    '\x7b' :: (padNl i (lvl + 1) ++ (dumpsMembers (kv :: kvs) i (lvl + 1) ++
                      (padNl i lvl ++ ('\x7d' :: rest)))) := by
                  show ('\x7b' :: (padNl i (lvl + 1) ++ (dumpsMembers (kv :: kvs) i (lvl + 1) ++
                      (padNl i lvl ++ ['\x7d'])))) ++ rest = _
                  simp [List.append_assoc]
                rw [hform]
                have hskip : skipWs (w ++ ('\x7b' :: (padNl i (lvl + 1) ++
                    (dumpsMembers (kv :: kvs) i (lvl + 1) ++
                      (padNl i lvl ++ ('\x7d' :: rest)))))) =
                    '\x7b' :: (padNl i (lvl + 1) ++ (dumpsMembers (kv :: kvs) i (lvl + 1) ++
                      (padNl i lvl ++ ('\x7d' :: rest)))) := by
                  rw [skipWs_append _ _ hw]
                  exact skipWs_not_ws '\x7b' _ rfl
                rw [parseValue, hskip]
                show (match skipWs (padNl i (lvl + 1) ++
                        (dumpsMembers (kv :: kvs) i (lvl + 1) ++
                          (padNl i lvl ++ ('\x7d' :: rest)))) with
                      | '\x7d' :: r2 => some (JVal.jobj [], r2)
                      | _ => (parseMembers f (padNl i (lvl + 1) ++
                          (dumpsMembers (kv :: kvs) i (lvl + 1) ++
                            (padNl i lvl ++ ('\x7d' :: rest))))).map
                          fun p => (JVal.jobj p.1, p.2)) = some (JVal.jobj (kv :: kvs), rest)
                obtain ⟨t, hct⟩ := dumpsMembers_head kv kvs i (lvl + 1)
                have hskip2 : skipWs (padNl i (lvl + 1) ++
                    (dumpsMembers (kv :: kvs) i (lvl + 1) ++
                      (padNl i lvl ++ ('\x7d' :: rest)))) =
                    '"' :: (t ++ (padNl i lvl ++ ('\x7d' :: rest))) := by
                  rw [skipWs_append _ _ (padNl_ws i (lvl + 1)), hct, List.cons_append]
                  exact skipWs_not_ws '"' _ rfl
                rw [hskip2]
                split
                · rename_i heq
                  exact absurd (List.cons_eq_cons.mp heq).1 (by decide)
                · rw [ihm (kv :: kvs) i (lvl + 1) (padNl i (lvl + 1)) (padNl i lvl) rest
                      (padNl_ws i (lvl + 1)) (padNl_ws i lvl) hwf (List.cons_ne_nil kv kvs)
                      (by omega)]
                  rfl
      · cases xs with
        | nil => exact absurd rfl hne
        | cons x t =>
            simp only [wfNumsItems, Bool.and_eq_true] at hwf
            obtain ⟨hwx, hwt⟩ := hwf
            simp only [itemsFuel] at hfuel
            cases t with
            | nil =>
                simp only [itemsFuel] at hfuel
                rw [show dumpsItems [x] i lvl = dumpsChars x i lvl from rfl, parseItems,
                    ihv x i lvl w (w2 ++ (']' :: rest)) hw hwx
                      (numSafe_ws_close w2 hw2 ']' rest (close_not_num ']' (Or.inl rfl)))
                      (by omega)]
                simp only [Option.bind_eq_bind, Option.some_bind]
                have hcl : skipWs (w2 ++ (']' :: rest)) = ']' :: rest := by
                  rw [skipWs_append _ _ hw2]
                  exact skipWs_not_ws ']' _ rfl
                rw [hcl]
                rfl
            | cons y u =>
                have hform : dumpsItems (x :: y :: u) i lvl ++ (w2 ++ (']' :: rest)) =
                    dumpsChars x i lvl ++ (',' :: (sepSp i lvl ++
                      (dumpsItems (y :: u) i lvl ++ (w2 ++ (']' :: rest))))) := by
                  rw [dumpsItems]
                  simp [List.append_assoc]
                rw [hform, parseItems,
                    ihv x i lvl w (',' :: (sepSp i lvl ++ (dumpsItems (y :: u) i lvl ++
                      (w2 ++ (']' :: rest))))) hw hwx rfl (by omega)]
                simp only [Option.bind_eq_bind, Option.some_bind]
                rw [show skipWs (',' :: (sepSp i lvl ++ (dumpsItems (y :: u) i lvl ++
                      (w2 ++ (']' :: rest))))) =
                    ',' :: (sepSp i lvl ++ (dumpsItems (y :: u) i lvl ++
                      (w2 ++ (']' :: rest)))) from skipWs_not_ws ',' _ rfl]
                show (parseItems f (sepSp i lvl ++ (dumpsItems (y :: u) i lvl ++
                      (w2 ++ (']' :: rest))))).map (fun p => (x :: p.1, p.2)) =
                    some (x :: y :: u, rest)
                rw [ihi (y :: u) i lvl (sepSp i lvl) w2 rest (sepSp_ws i lvl) hw2 hwt
                    (List.cons_ne_nil y u) (by omega)]
                rfl
      · cases kvs with
        | nil => exact absurd rfl hne
        | cons kv t =>
            simp only [wfNumsMembers, Bool.and_eq_true] at hwf
            obtain ⟨hwv, hwt⟩ := hwf
            simp only [membersFuel] at hfuel
            cases t with
            | nil =>
                simp only [membersFuel] at hfuel
                have hform : dumpsMembers [kv] i lvl ++ (w2 ++ ('\x7d' :: rest)) =
                    '"' :: (escString kv.1 ++ ('"' :: (':' :: (' ' ::
                      (dumpsChars kv.2 i lvl ++ (w2 ++ ('\x7d' :: rest))))))) := by
                  rw [dumpsMembers, strJ]
                  simp [List.append_assoc]
                have hs : skipWs (w ++ (dumpsMembers [kv] i lvl ++ (w2 ++ ('\x7d' :: rest)))) =
                    '"' :: (escString kv.1 ++ ('"' :: (':' :: (' ' ::
                      (dumpsChars kv.2 i lvl ++ (w2 ++ ('\x7d' :: rest))))))) := by
                  rw [skipWs_append _ _ hw, hform]
                  exact skipWs_not_ws '"' _ rfl
                have hv : parseValue f (' ' :: (dumpsChars kv.2 i lvl ++
                    (w2 ++ ('\x7d' :: rest)))) = some (kv.2, w2 ++ ('\x7d' :: rest)) :=
                  ihv kv.2 i lvl [' '] (w2 ++ ('\x7d' :: rest)) singleSpace_ws hwv
                    (numSafe_ws_close w2 hw2 '\x7d' rest
                      (close_not_num '\x7d' (Or.inr (Or.inl rfl)))) (by omega)
                rw [parseMembers_step f _ kv.1 kv.2 i lvl (w2 ++ ('\x7d' :: rest)) hs hv]
                have hcl : skipWs (w2 ++ ('\x7d' :: rest)) = '\x7d' :: rest := by
                  rw [skipWs_append _ _ hw2]
                  exact skipWs_not_ws '\x7d' _ rfl
                rw [hcl]
                rfl
            | cons kv2 u =>
                have hform : dumpsMembers (kv :: kv2 :: u) i lvl ++ (w2 ++ ('\x7d' :: rest)) =
                    '"' :: (escString kv.1 ++ ('"' :: (':' :: (' ' ::
                      (dumpsChars kv.2 i lvl ++ (',' :: (sepSp i lvl ++
                        (dumpsMembers (kv2 :: u) i lvl ++ (w2 ++ ('\x7d' :: rest)))))))))) := by
                  rw [dumpsMembers, strJ]
                  simp [List.append_assoc]
                have hs : skipWs (w ++ (dumpsMembers (kv :: kv2 :: u) i lvl ++
                    (w2 ++ ('\x7d' :: rest)))) =
                    '"' :: (escString kv.1 ++ ('"' :: (':' :: (' ' ::
                      (dumpsChars kv.2 i lvl ++ (',' :: (sepSp i lvl ++
                        (dumpsMembers (kv2 :: u) i lvl ++ (w2 ++ ('\x7d' :: rest)))))))))) := by
                  rw [skipWs_append _ _ hw, hform]
                  exact skipWs_not_ws '"' _ rfl
                have hv : parseValue f (' ' :: (dumpsChars kv.2 i lvl ++
                    (',' :: (sepSp i lvl ++ (dumpsMembers (kv2 :: u) i lvl ++
                      (w2 ++ ('\x7d' :: rest))))))) =
                    some (kv.2, ',' :: (sepSp i lvl ++ (dumpsMembers (kv2 :: u) i lvl ++
                      (w2 ++ ('\x7d' :: rest))))) :=
                  ihv kv.2 i lvl [' '] (',' :: (sepSp i lvl ++
                    (dumpsMembers (kv2 :: u) i lvl ++ (w2 ++ ('\x7d' :: rest)))))
                    singleSpace_ws hwv rfl (by omega)
                rw [parseMembers_step f _ kv.1 kv.2 i lvl (',' :: (sepSp i lvl ++
                    (dumpsMembers (kv2 :: u) i lvl ++ (w2 ++ ('\x7d' :: rest))))) hs hv]
                rw [show skipWs (',' :: (sepSp i lvl ++ (dumpsMembers (kv2 :: u) i lvl ++
                      (w2 ++ ('\x7d' :: rest))))) =
                    ',' :: (sepSp i lvl ++ (dumpsMembers (kv2 :: u) i lvl ++
                      (w2 ++ ('\x7d' :: rest)))) from skipWs_not_ws ',' _ rfl]
                show (parseMembers f (sepSp i lvl ++ (dumpsMembers (kv2 :: u) i lvl ++
                      (w2 ++ ('\x7d' :: rest))))).map
                    (fun p => ((kv.1, kv.2) :: p.1, p.2)) = some (kv :: kv2 :: u, rest)
                rw [ihm (kv2 :: u) i lvl (sepSp i lvl) w2 rest (sepSp_ws i lvl) hw2 hwt
                    (List.cons_ne_nil kv2 u) (by omega)]
                rfl

/-- One direction of the round-trip for a given indent choice. -/
theorem roundtrip_one (v : JVal) (i : Option Nat) (hwf : wfNums v = true) :
    parseJson (dumps v i) = some v := by
  rw [parseJson]
  have hfuel : jvalFuel v ≤ (dumps v i).length + 1 := by
    have hb := (dumps_len_bound (jvalFuel v)).1 v i 0 le_rfl
    rw [show (dumps v i).length = (dumpsChars v i 0).length from rfl]
    omega
  have haux := (roundtrip_aux ((dumps v i).length + 1)).1 v i 0 [] []
    (fun c hc => absurd hc (List.not_mem_nil c)) hwf rfl hfuel
  rw [List.nil_append, List.append_nil] at haux
  have hp : parseValue ((dumps v i).length + 1) ((dumps v i).toList) = some (v, []) := haux
  rw [hp]
  rfl

/-- A converted document record exercising every kind of field a real
conversion produces: metadata strings with escapes, a control character
and non-ASCII text, nested page objects, tables with null cells, the
boolean images flag, integer counts and a fractional average word
length. -/
def roundtripSample : JVal :=
  .jobj [("metadata", .jobj [("Title", .jstr "Annual Report \x01 — über\n\"PDF\"\\"),
           ("CreationDate", .jstr "2023-01-15T12:00:00")]),
         ("pages", .jarr [.jobj [("page_number", .jnum 1),
           ("dimensions", .jobj [("width", .jnum (mkRat 1225 2)), ("height", .jnum 792)]),
           ("content", .jobj [("text", .jstr "ab c"),
             ("tables", .jarr [.jobj [("data", .jarr [.jarr [.jstr "x", .jnull]])]]),
             ("images", .jbool false),
             ("layout", .jobj [("word_count", .jnum 2),
               ("avg_word_length", .jnum (mkRat 3 2))])])]]),
         ("stats", .jobj [("total_pages", .jnum 1), ("total_words", .jnum 2)])]

/-- C9: serializing a document record to JSON text — in either the
indented formatting or the compact one — and parsing the text back yields
the identical structure: same keys, same values, same order; in
particular the two formattings parse to equal structures.  The
`wfNums` hypothesis says every number in the record has a finite decimal
expansion, which holds of every IEEE-754 float and integer an actual
record contains. -/
theorem json_roundtrip (v : JVal) (hwf : wfNums v = true) :
    parseJson (dumps v (some 2)) = some v ∧ parseJson (dumps v none) = some v :=
  ⟨roundtrip_one v (some 2) hwf, roundtrip_one v none hwf⟩

/-- Witness: C9 applied to the sample record. -/
theorem json_roundtrip_witness :
    wfNums roundtripSample = true ∧
    parseJson (dumps roundtripSample (some 2)) = some roundtripSample ∧
    parseJson (dumps roundtripSample none) = some roundtripSample :=
  ⟨rfl, (json_roundtrip roundtripSample rfl).1, (json_roundtrip roundtripSample rfl).2⟩

end PdfToJson
